import Mathlib

/-!
Verification of the term-capture session recorder.

This file gives a shallow embedding, in Lean, of the parts of the
repository relevant to its specified properties: the ULEB128 varint
codec (`termplex/tcap.hpp`), the hexflow byte formatter
(`term-capture/hexflow.cpp`), and the sidecar recorder, relay loop,
signal handler, and teardown sequence of
`term-capture/term-capture.cpp`.  Machine integers are modelled as
`Nat` with explicit reduction modulo `2 ^ 64` where the C++ `uint64_t`
arithmetic can overflow; file descriptors and process ids are `Int`
(with `-1` as the "absent" sentinel, as in the source); fallible
operations are driven by explicit success flags standing for the
outcomes of the underlying system calls.

Definitions come first, then the theorems about them.
-/

namespace TermCapture

/-! ## Basic machine arithmetic -/

/-- The modulus of the C++ `uint64_t` arithmetic used throughout. -/
def U64 : Nat := 2 ^ 64

/-- `uint64_t` subtraction `a - b` (two's-complement wraparound),
assuming `b` is already reduced as a `uint64_t` value. -/
def u64sub (a b : Nat) : Nat := (a + (U64 - b % U64)) % U64

/-! ## Varint codec (`termplex/tcap.hpp`) -/

/-- `uleb128_encode` from `termplex/tcap.hpp`: a do-while loop that
emits the low 7 bits of the remaining value in each byte and sets the
continuation bit `0x80` on every byte that is followed by another. -/
def uleb128_encode (value : Nat) : List Nat :=
  if _h : value / 128 = 0 then [value % 128]
  else (value % 128 + 128) :: uleb128_encode (value / 128)
decreasing_by
  exact Nat.div_lt_self (Nat.pos_of_ne_zero (fun h0 => _h (by simp [h0]))) (by norm_num)

/-- The loop of `uleb128_decode` from `termplex/tcap.hpp`, with the
accumulator `result`, the current `shift`, and the index `i` made
explicit.  Each byte contributes its low 7 bits shifted into place
(truncated to `uint64_t`, hence the `% U64`); a byte with clear
continuation bit ends decoding successfully with the consumed count;
running out of buffer, or the shift reaching 64 after a continuation
byte, yields `none` — the C++ `pair(false, 0)` with `out_value`
unset. -/
def uleb128_decodeAux : List Nat → Nat → Nat → Nat → Option (Nat × Nat)
  | [], _, _, _ => none
  | byte :: rest, result, shift, i =>
    let part := ((byte &&& 127) <<< shift) % U64
    let result2 := result ||| part
    if byte &&& 128 = 0 then some (result2, i + 1)
    else if 64 ≤ shift + 7 then none
    else uleb128_decodeAux rest result2 (shift + 7) (i + 1)

/-- `uleb128_decode` from `termplex/tcap.hpp`, on a byte buffer of the
given length (the list); `some (value, consumed)` models the C++
`ok=true` return with `out_value = value`, and `none` models
`pair(false, 0)`. -/
def uleb128_decode (data : List Nat) : Option (Nat × Nat) :=
  uleb128_decodeAux data 0 0 0

/-! ## Hexflow byte formatter (`term-capture/hexflow.cpp`) -/

/-- `isprint` of `<cctype>` in the "C" locale, applied to an
`unsigned char`: true exactly on the visible ASCII range
`0x20 .. 0x7E`. -/
def isprint (c : Nat) : Bool := 32 ≤ c && c ≤ 126

/-- One lowercase hexadecimal digit, as its ASCII code. -/
def hexDigit (n : Nat) : Nat := if n < 10 then 48 + n else 87 + n

/-- `print_byte` from `term-capture/hexflow.cpp`: returns the bytes
written to the output stream together with the updated
`last_was_nonprint_state` flag.  A transition space is emitted when a
printable byte follows a non-printable one; printable bytes are
echoed; newline, carriage return and tab become ` \n`, ` \r`, ` \t`;
every other byte becomes a space and two zero-padded lowercase hex
digits (`std::hex`, `setw(2)`, `setfill` with zero). -/
def print_byte (c : Nat) (last_was_nonprint_state : Bool) : List Nat × Bool :=
  let is_print := isprint c
  let space := if is_print && last_was_nonprint_state then [32] else []
  let body :=
    if is_print then [c]
    else if c = 10 then [32, 92, 110]
    else if c = 13 then [32, 92, 114]
    else if c = 9 then [32, 92, 116]
    else [32, hexDigit (c / 16), hexDigit (c % 16)]
  (space ++ body, !is_print)

/-- The behaviour of the byte formatter as the specification words it
(claim C10): `c` itself when printable, preceded by exactly one space
if and only if the preceding byte was non-printable; the escapes
`\n`, `\r`, `\t` preceded by a space; otherwise a space and two
zero-padded lowercase hex digits; and the state flag records whether
`c` was non-printable. -/
def hexflowSpec (c : Nat) (prior_nonprint : Bool) : List Nat × Bool :=
  let printable := 32 ≤ c && c ≤ 126
  let written :=
    if printable then (if prior_nonprint then [32, c] else [c])
    else if c = 10 then [32, 92, 110]
    else if c = 13 then [32, 92, 114]
    else if c = 9 then [32, 92, 116]
    else [32, hexDigit (c / 16), hexDigit (c % 16)]
  (written, !printable)

/-! ## Signal handler and teardown (`term-capture/term-capture.cpp`) -/

/-- `SIGCHLD` on Linux. -/
def SIGCHLD : Nat := 17

/-- `SIGINT` on Linux. -/
def SIGINT : Nat := 2

/-- Observable descriptor/process actions performed by the teardown
sequence: `closeFd` a descriptor, `kill` (SIGTERM) a process, `reap`
(waitpid) a process. -/
inductive FdAction where
  | closeFd (fd : Int)
  | kill (pid : Int)
  | reap (pid : Int)
deriving DecidableEq

/-- The process-global state touched by `cleanup` and
`signal_handler` in `term-capture/term-capture.cpp`: the saved-mode
flag, the PTY master descriptor, the tracked child pid, both ends of
the SIGWINCH self-pipe, and the `should_exit` / `did_cleanup`
flags. -/
structure CapState where
  have_orig_termios : Bool
  masterFd : Int
  child_pid : Int
  winch0 : Int
  winch1 : Int
  should_exit : Bool
  did_cleanup : Bool
deriving DecidableEq

/-- `cleanup()` from `term-capture/term-capture.cpp` lines 44-65:
restores the terminal, closes each self-pipe end and the master
descriptor if (and only if) it is still `≥ 0`, resetting it to `-1`;
kills and reaps the child if its pid is still `> 0`, resetting it to
`-1`; finally sets `did_cleanup`.  Returns the new state and the
descriptor/process actions performed, in order. -/
def cleanup (s : CapState) : CapState × List FdAction :=
  let a0 := if s.winch0 ≥ 0 then [FdAction.closeFd s.winch0] else []
  let w0 := if s.winch0 ≥ 0 then (-1 : Int) else s.winch0
  let a1 := if s.winch1 ≥ 0 then [FdAction.closeFd s.winch1] else []
  let w1 := if s.winch1 ≥ 0 then (-1 : Int) else s.winch1
  let a2 := if s.masterFd ≥ 0 then [FdAction.closeFd s.masterFd] else []
  let m := if s.masterFd ≥ 0 then (-1 : Int) else s.masterFd
  let a3 := if s.child_pid > 0 then [FdAction.kill s.child_pid, FdAction.reap s.child_pid] else []
  let c := if s.child_pid > 0 then (-1 : Int) else s.child_pid
  ({ s with winch0 := w0, winch1 := w1, masterFd := m, child_pid := c, did_cleanup := true },
   a0 ++ a1 ++ a2 ++ a3)

/-- `signal_handler(sig)` from `term-capture/term-capture.cpp` lines
102-111.  `waitpid_ret` is the pid returned by
`waitpid(-1, &status, WNOHANG)` in the handler (`-1` when the process
has no children, `0` when no child has exited, otherwise the reaped
pid).  The handler sets `should_exit` unconditionally; on `SIGCHLD`,
if the reaped pid equals the tracked `child_pid` it invokes
`cleanup_and_exit(0)`.  Returns the new state, the teardown actions
performed, and whether `exit(0)` was reached. -/
def signal_handler (sig : Nat) (waitpid_ret : Int) (s : CapState) :
    CapState × List FdAction × Bool :=
  let s1 := { s with should_exit := true }
  if sig = SIGCHLD then
    if waitpid_ret = s1.child_pid then
      let r := cleanup s1
      (r.1, r.2, true)
    else (s1, [], false)
  else (s1, [], false)

/-! ## Sidecar setup and degraded mode (`term-capture.cpp` lines 341-347, 379-431, 456-466) -/

/-- The sidecar bookkeeping of the recorder: whether each sidecar
descriptor is live (`fd ≥ 0` in the source) and how many warning
lines have been printed to standard error. -/
structure SidecarState where
  input_tidx_enabled : Bool
  output_tidx_enabled : Bool
  events_enabled : Bool
  warnings : Nat
deriving DecidableEq

/-- The sidecar setup block, `term-capture/term-capture.cpp` lines
383-431.  Each boolean models the success of the corresponding
`open(2)` or header `write_all`.  When both tidx opens succeed but a
header write fails, both tidx descriptors are closed and disabled
with a warning; when an open fails, a warning is emitted (the sibling
descriptor, if open, is left as it is).  The events sidecar is
disabled with a warning when its open or header write fails.  No path
terminates the session. -/
def sidecar_setup (input_open_ok output_open_ok events_open_ok
    tidx_headers_ok events_header_ok : Bool) : SidecarState :=
  let s0 : SidecarState := ⟨input_open_ok, output_open_ok, events_open_ok, 0⟩
  let tidx_ok := input_open_ok && output_open_ok
  let s1 :=
    if tidx_ok then
      if tidx_headers_ok then s0
      else { s0 with input_tidx_enabled := false, output_tidx_enabled := false,
                     warnings := s0.warnings + 1 }
    else { s0 with warnings := s0.warnings + 1 }
  if events_open_ok then
    if events_header_ok then s1
    else { s1 with events_enabled := false, warnings := s1.warnings + 1 }
  else { s1 with warnings := s1.warnings + 1 }

/-- Session setup, `term-capture/term-capture.cpp` lines 341-347
followed by the sidecar block: failure to open the primary raw logs
exits with status 1 before any sidecar work; sidecar failures are
handled by `sidecar_setup` and never produce an error exit. -/
def session_setup (primary_logs_ok : Bool) (input_open_ok output_open_ok events_open_ok
    tidx_headers_ok events_header_ok : Bool) : Except Nat SidecarState :=
  if primary_logs_ok then
    Except.ok (sidecar_setup input_open_ok output_open_ok events_open_ok
      tidx_headers_ok events_header_ok)
  else Except.error 1

/-- The delta state of a timing index or event stream: the previous
record's absolute elapsed time and absolute offset (both start at
zero). -/
structure PrevState where
  prev_t : Nat
  prev_end : Nat
deriving DecidableEq

/-- `write_tidx_record` from `term-capture/term-capture.cpp` lines
456-466, with the two `write_all` outcomes explicit.  The record is
two deltas (elapsed time, then offset), each taken against the
previous record — or taken absolutely when the stored previous value
is zero.  If either write fails the function returns early: the
previous-record state is not updated, the descriptor stays whatever
it was (`enabled` is returned unchanged), and no warning is emitted
(`warnings` is returned unchanged). -/
def write_tidx_record_io (enabled : Bool) (warnings : Nat) (w1_ok w2_ok : Bool)
    (t_ns end_off : Nat) (p : PrevState) : List Nat × PrevState × Bool × Nat :=
  if enabled then
    let dt := if p.prev_t = 0 then t_ns else u64sub t_ns p.prev_t
    let dend := if p.prev_end = 0 then end_off else u64sub end_off p.prev_end
    let dt_enc := uleb128_encode dt
    let de_enc := uleb128_encode dend
    if !w1_ok then ([], p, enabled, warnings)
    else if !w2_ok then (dt_enc, p, enabled, warnings)
    else (dt_enc ++ de_enc, ⟨t_ns, end_off⟩, enabled, warnings)
  else ([], p, enabled, warnings)

/-! ## The relay loop (`term-capture.cpp` lines 447-454, 517-524, 557-645) -/

/-- `write_tidx_record` on the successful-write path, producing the
delta pair (elapsed-time delta, offset delta) and the updated
previous-record state. -/
def write_tidx_record (t_ns end_off : Nat) (p : PrevState) : (Nat × Nat) × PrevState :=
  let dt := if p.prev_t = 0 then t_ns else u64sub t_ns p.prev_t
  let dend := if p.prev_end = 0 then end_off else u64sub end_off p.prev_end
  ((dt, dend), ⟨t_ns, end_off⟩)

/-- `write_resize_event` from `term-capture/term-capture.cpp` lines
468-485 on the successful path: a resize record is the elapsed-time
delta and output-offset delta (each against the previous resize
record, or absolute when the stored previous value is zero) plus the
new column and row counts. -/
def write_resize_event (t_ns out_off cols rows : Nat) (p : PrevState) :
    (Nat × Nat × Nat × Nat) × PrevState :=
  let dt := if p.prev_t = 0 then t_ns else u64sub t_ns p.prev_t
  let doff := if p.prev_end = 0 then out_off else u64sub out_off p.prev_end
  ((dt, doff, cols, rows), ⟨t_ns, out_off⟩)

/-- The state of the relay loop that the recorder mutates: the
stdin-monitoring flag, the shutdown and teardown flags, the two raw
logs with their cumulative `uint64_t` offsets, the previous-record
state of each delta stream, and the records appended so far (delta
pairs for the timing indices, delta quadruples for resize events). -/
structure LoopState where
  stdin_open : Bool
  should_exit : Bool
  did_cleanup : Bool
  inputLog : List Nat
  outputLog : List Nat
  input_end : Nat
  output_end : Nat
  input_prev : PrevState
  output_prev : PrevState
  events_prev : PrevState
  input_tidx : List (Nat × Nat)
  output_tidx : List (Nat × Nat)
  resize_events : List (Nat × Nat × Nat × Nat)
deriving DecidableEq

/-- One wake-up of the relay loop, with the monotonic-clock reading
taken at that point: data read from standard input (an empty chunk is
`read` returning 0, i.e. end-of-file), data read from the PTY master,
or a pending window-size change with the newly observed geometry. -/
inductive LoopEv where
  | stdinData (t : Nat) (bytes : List Nat)
  | masterData (t : Nat) (bytes : List Nat)
  | winch (t : Nat) (cols rows : Nat)
deriving DecidableEq

/-- The clock reading carried by a loop event. -/
def evTime : LoopEv → Nat
  | .stdinData t _ => t
  | .masterData t _ => t
  | .winch t _ _ => t

/-- One iteration of the relay loop body, `term-capture.cpp` lines
594-644, on the happy path with all sidecars enabled and all writes
succeeding.  Standard input is read only while `stdin_open`; a read
of 0 bytes disables stdin monitoring and nothing else.  A non-empty
chunk from either side is appended to the corresponding raw log, the
cumulative offset advances by its length (`uint64_t` addition), and a
timing-index record is appended.  A window-size change appends a
resize record at the output stream's current offset. -/
def step (s : LoopState) : LoopEv → LoopState
  | .stdinData t bytes =>
    if s.stdin_open then
      match bytes with
      | [] => { s with stdin_open := false }
      | b :: bs =>
        let end2 := (s.input_end + (b :: bs).length) % U64
        let r := write_tidx_record t end2 s.input_prev
        { s with inputLog := s.inputLog ++ (b :: bs), input_end := end2,
                 input_prev := r.2, input_tidx := s.input_tidx ++ [r.1] }
    else s
  | .masterData t bytes =>
    match bytes with
    | [] => s
    | b :: bs =>
      let end2 := (s.output_end + (b :: bs).length) % U64
      let r := write_tidx_record t end2 s.output_prev
      { s with outputLog := s.outputLog ++ (b :: bs), output_end := end2,
               output_prev := r.2, output_tidx := s.output_tidx ++ [r.1] }
  | .winch t cols rows =>
    let r := write_resize_event t s.output_end cols rows s.events_prev
    { s with resize_events := s.resize_events ++ [r.1], events_prev := r.2 }

/-- Running the relay loop over a sequence of wake-ups. -/
def run (s : LoopState) (evs : List LoopEv) : LoopState := evs.foldl step s

/-- The loop state as first set up: stdin monitored, nothing logged,
all delta streams at their zero origin. -/
def initLoopState : LoopState :=
  ⟨true, false, false, [], [], 0, 0, ⟨0, 0⟩, ⟨0, 0⟩, ⟨0, 0⟩, [], [], []⟩

/-- Session start, `term-capture.cpp` lines 517-524: before the loop
runs, an initial resize record establishing the starting geometry is
written at offset 0 with the clock reading `t0`. -/
def initState (t0 cols0 rows0 : Nat) : LoopState :=
  step initLoopState (.winch t0 cols0 rows0)

/-- The file-descriptor read set built at the top of each loop
iteration, lines 559-576: standard input (descriptor 0) only while
stdin is monitored, the PTY master, and the self-pipe read end when
present. -/
def select_fds (stdin_open : Bool) (masterFd winch0 : Int) : List Int :=
  (if stdin_open then [(0 : Int)] else []) ++ [masterFd] ++
    (if winch0 ≥ 0 then [winch0] else [])

/-! ## Trace projections (what the loop does, chunk by chunk) -/

/-- All bytes the loop reads from the PTY master. -/
def outBytes : List LoopEv → List Nat
  | [] => []
  | .masterData _ bytes :: rest => bytes ++ outBytes rest
  | .stdinData _ _ :: rest => outBytes rest
  | .winch _ _ _ :: rest => outBytes rest

/-- The non-empty PTY-master chunks as (clock, length) pairs. -/
def outChunks : List LoopEv → List (Nat × Nat)
  | [] => []
  | .masterData _ [] :: rest => outChunks rest
  | .masterData t (b :: bs) :: rest => (t, (b :: bs).length) :: outChunks rest
  | .stdinData _ _ :: rest => outChunks rest
  | .winch _ _ _ :: rest => outChunks rest

/-- All bytes the loop reads from standard input, honouring the
stdin-monitoring flag (first argument): after an empty read nothing
further is consumed. -/
def inBytes : Bool → List LoopEv → List Nat
  | _, [] => []
  | false, _ :: rest => inBytes false rest
  | true, .stdinData _ [] :: rest => inBytes false rest
  | true, .stdinData _ (b :: bs) :: rest => (b :: bs) ++ inBytes true rest
  | true, .masterData _ _ :: rest => inBytes true rest
  | true, .winch _ _ _ :: rest => inBytes true rest

/-- The non-empty standard-input chunks as (clock, length) pairs,
honouring the stdin-monitoring flag. -/
def inChunks : Bool → List LoopEv → List (Nat × Nat)
  | _, [] => []
  | false, _ :: rest => inChunks false rest
  | true, .stdinData _ [] :: rest => inChunks false rest
  | true, .stdinData t (b :: bs) :: rest => (t, (b :: bs).length) :: inChunks true rest
  | true, .masterData _ _ :: rest => inChunks true rest
  | true, .winch _ _ _ :: rest => inChunks true rest

/-- The stdin-monitoring flag after a sequence of wake-ups. -/
def stdinOpenAfter : Bool → List LoopEv → Bool
  | o, [] => o
  | false, _ :: rest => stdinOpenAfter false rest
  | true, .stdinData _ [] :: rest => stdinOpenAfter false rest
  | true, .stdinData _ (_ :: _) :: rest => stdinOpenAfter true rest
  | true, .masterData _ _ :: rest => stdinOpenAfter true rest
  | true, .winch _ _ _ :: rest => stdinOpenAfter true rest

/-- The window-size changes of a trace as absolute records
(clock, output offset at that point, cols, rows), tracking the
cumulative output offset from `endOff`. -/
def resizeChunks : Nat → List LoopEv → List (Nat × Nat × Nat × Nat)
  | _, [] => []
  | endOff, .masterData _ [] :: rest => resizeChunks endOff rest
  | endOff, .masterData _ (b :: bs) :: rest =>
    resizeChunks ((endOff + (b :: bs).length) % U64) rest
  | endOff, .winch t cols rows :: rest => (t, endOff, cols, rows) :: resizeChunks endOff rest
  | endOff, .stdinData _ _ :: rest => resizeChunks endOff rest

/-- Replaying the timing-index writer over a chunk list: returns the
final cumulative offset, the final previous-record state, and the
delta records produced. -/
def tidxRun : Nat → PrevState → List (Nat × Nat) → Nat × PrevState × List (Nat × Nat)
  | endOff, p, [] => (endOff, p, [])
  | endOff, p, (t, n) :: rest =>
    let end2 := (endOff + n) % U64
    let r := write_tidx_record t end2 p
    let rest2 := tidxRun end2 r.2 rest
    (rest2.1, rest2.2.1, r.1 :: rest2.2.2)

/-- Replaying the resize-event writer over absolute resize records:
returns the final previous-record state and the delta records
produced. -/
def resizeRun : PrevState → List (Nat × Nat × Nat × Nat) →
    PrevState × List (Nat × Nat × Nat × Nat)
  | p, [] => (p, [])
  | p, (t, off, cols, rows) :: rest =>
    let r := write_resize_event t off cols rows p
    let rest2 := resizeRun r.2 rest
    (rest2.1, r.1 :: rest2.2)

/-! ## Reconstruction and format (spec side) -/

/-- Cumulative summation of delta pairs from the accumulators
`(a, b)`: the reconstruction of absolute (elapsed time, offset)
records from a timing index. -/
def reconstruct (a b : Nat) : List (Nat × Nat) → List (Nat × Nat)
  | [] => []
  | (dt, doff) :: rest => (a + dt, b + doff) :: reconstruct (a + dt) (b + doff) rest

/-- Cumulative summation for resize records: the first two components
are deltas, the column and row counts are absolute. -/
def reconstructR (a b : Nat) : List (Nat × Nat × Nat × Nat) → List (Nat × Nat × Nat × Nat)
  | [] => []
  | (dt, doff, cols, rows) :: rest =>
    (a + dt, b + doff, cols, rows) :: reconstructR (a + dt) (b + doff) rest

/-- Differences of successive absolute records, the first taken
against `(pt, po)` (session start and offset zero at the top level):
the inverse of `reconstruct`. -/
def deltasOf (pt po : Nat) : List (Nat × Nat) → List (Nat × Nat)
  | [] => []
  | (t, o) :: rest => (t - pt, o - po) :: deltasOf t o rest

/-- The absolute (clock, cumulative offset) records that a chunk list
should produce, starting from offset `endOff`. -/
def absChunks (endOff : Nat) : List (Nat × Nat) → List (Nat × Nat)
  | [] => []
  | (t, n) :: rest => (t, endOff + n) :: absChunks (endOff + n) rest

/-- Total byte count of a chunk list. -/
def chunksTotal : List (Nat × Nat) → Nat
  | [] => 0
  | (_, n) :: rest => n + chunksTotal rest

/-- The clock readings of a trace are non-decreasing starting from
`c`, and all below `2 ^ 64`. -/
def timesMono : Nat → List LoopEv → Bool
  | _, [] => true
  | c, e :: rest => decide (c ≤ evTime e) && decide (evTime e < U64) && timesMono (evTime e) rest

/-- The clock readings of a trace are strictly increasing starting
above `c`, and all below `2 ^ 64`. -/
def timesStrict : Nat → List LoopEv → Bool
  | _, [] => true
  | c, e :: rest => decide (c < evTime e) && decide (evTime e < U64) && timesStrict (evTime e) rest

/-- Chunk-level counterpart of `timesMono`. -/
def chunkTimesMono : Nat → List (Nat × Nat) → Bool
  | _, [] => true
  | c, (t, _) :: rest => decide (c ≤ t) && decide (t < U64) && chunkTimesMono t rest

/-- Resize-record-level counterpart of `timesStrict`. -/
def rchunkTimesStrict : Nat → List (Nat × Nat × Nat × Nat) → Bool
  | _, [] => true
  | c, (t, _, _, _) :: rest => decide (c < t) && decide (t < U64) && rchunkTimesStrict t rest

/-- The offsets of a list of absolute resize records are
non-decreasing starting from `o`, and all below `2 ^ 64`. -/
def rchunkOffMono : Nat → List (Nat × Nat × Nat × Nat) → Bool
  | _, [] => true
  | o, (_, off, _, _) :: rest => decide (o ≤ off) && decide (off < U64) && rchunkOffMono off rest

/-! ## Sidecar file bytes (`term-capture.cpp` lines 371-377, 387-391) -/

/-- `write_u64_le`: the eight bytes `(v >> (i*8)) & 0xFF` for
`i = 0 .. 7`, least significant first. -/
def write_u64_le (v : Nat) : List Nat :=
  [(v >>> 0) &&& 255, (v >>> 8) &&& 255, (v >>> 16) &&& 255, (v >>> 24) &&& 255,
   (v >>> 32) &&& 255, (v >>> 40) &&& 255, (v >>> 48) &&& 255, (v >>> 56) &&& 255]

/-- `tidx_header`: the 5 magic bytes `TIDX1`, one zero flags byte,
and the session start wall-clock nanosecond timestamp as 8
little-endian bytes. -/
def tidx_header (started_at_unix_ns : Nat) : List Nat :=
  [84, 73, 68, 88, 49] ++ [0] ++ write_u64_le started_at_unix_ns

/-- The encoded bytes of one timing-index record: the two deltas as
ULEB128, elapsed-time delta first. -/
def tidx_record_bytes (r : Nat × Nat) : List Nat :=
  uleb128_encode r.1 ++ uleb128_encode r.2

/-- The byte content of one produced `.tidx` sidecar file, as
determined by the setup outcomes of lines 383-431 and the record
writes of the relay loop, on the path where every *attempted* write
succeeds.  `own_open_ok` and `sibling_open_ok` are the outcomes of
the two `open_trunc` calls.  When both opens succeed (`tidx_ok`), the
header is written and the loop appends the records.  When the sibling
open fails, `tidx_ok` is false so no header write is attempted — but
the surviving descriptor is left `≥ 0` (the `else` branch of lines
420-422 does not reset it), so the loop's `fd >= 0` guards at lines
619-621 and 640-642 still append the records: the file is produced
headerless.  When the own open fails there is no file content. -/
def tidx_file_produced (own_open_ok sibling_open_ok : Bool)
    (started_at_unix_ns : Nat) (recs : List (Nat × Nat)) : List Nat :=
  if own_open_ok then
    if sibling_open_ok then
      tidx_header started_at_unix_ns ++ (recs.map tidx_record_bytes).flatten
    else (recs.map tidx_record_bytes).flatten
  else []

/-- The numeric value of a little-endian byte sequence (spec side). -/
def leValue : List Nat → Nat
  | [] => 0
  | b :: rest => b + 256 * leValue rest

/-! # Theorems -/

/-! ## Arithmetic helpers -/

theorem u64sub_eq (a b : Nat) (hb : b ≤ a) (ha : a < U64) : u64sub a b = a - b := by
  have hbU : b < U64 := lt_of_le_of_lt hb ha
  unfold u64sub
  rw [Nat.mod_eq_of_lt hbU]
  have h1 : a + (U64 - b) = (a - b) + U64 := by omega
  rw [h1, Nat.add_mod_right, Nat.mod_eq_of_lt (by omega)]

theorem uleb128_encode_ne_nil (v : Nat) : uleb128_encode v ≠ [] := by
  rw [uleb128_encode]
  split <;> simp

/-- Low 7 bits: `x &&& 127 = x % 128`. -/
theorem and_127_eq_mod (x : Nat) : x &&& 127 = x % 128 := by
  have h := Nat.and_pow_two_sub_one_eq_mod x 7
  norm_num at h
  exact h

/-- A value below 128 has a clear continuation bit. -/
theorem and_128_eq_zero_of_lt {x : Nat} (hx : x < 128) : x &&& 128 = 0 := by
  have h : x &&& 128 = 128 &&& x := Nat.land_comm x 128
  rw [h]
  have h2 : (128 : Nat) = 2 ^ 7 := by norm_num
  rw [h2, Nat.two_pow_and]
  have : Nat.testBit x 7 = false := Nat.testBit_lt_two_pow (by norm_num; omega)
  simp [this]

/-- A byte in `[128, 256)` has a set continuation bit. -/
theorem and_128_ne_zero {x : Nat} (h1 : 128 ≤ x) (h2 : x < 256) : x &&& 128 ≠ 0 := by
  have h : x &&& 128 = 128 &&& x := Nat.land_comm x 128
  rw [h]
  have hp : (128 : Nat) = 2 ^ 7 := by norm_num
  rw [hp, Nat.two_pow_and]
  have ht : Nat.testBit x 7 = true := by
    rw [Nat.testBit_to_div_mod]
    have hd : x / 128 = 1 := by omega
    norm_num [hd]
  simp [ht]

/-- OR of a low part and a disjoint shifted part is their sum. -/
theorem lor_mul_pow {a : Nat} (b s : Nat) (ha : a < 2 ^ s) :
    a ||| b * 2 ^ s = a + b * 2 ^ s := by
  calc a ||| b * 2 ^ s = b * 2 ^ s ||| a := Nat.lor_comm _ _
    _ = 2 ^ s * b ||| a := by rw [Nat.mul_comm]
    _ = 2 ^ s * b + a := (Nat.mul_add_lt_is_or ha b).symm
    _ = a + b * 2 ^ s := by ring

/-! ## Varint codec lemmas and claims C1, C9 -/

/-- Decoding the encoding of `v`, entered with accumulator `result`
and shift `shift`, consumes the whole encoding and adds `v` shifted
into place. -/
theorem uleb128_decodeAux_encode (v : Nat) : ∀ result shift i : Nat,
    v * 2 ^ shift < U64 → result < 2 ^ shift →
    uleb128_decodeAux (uleb128_encode v) result shift i =
      some (result + v * 2 ^ shift, i + (uleb128_encode v).length) := by
  induction v using Nat.strong_induction_on with
  | _ v ih =>
    intro result shift i hv hr
    rw [uleb128_encode]
    by_cases h : v / 128 = 0
    · have hv128 : v < 128 := by omega
      simp only [h, dif_pos]
      rw [Nat.mod_eq_of_lt hv128]
      simp only [uleb128_decodeAux, and_127_eq_mod, Nat.mod_eq_of_lt hv128]
      rw [if_pos (and_128_eq_zero_of_lt hv128)]
      rw [Nat.shiftLeft_eq, Nat.mod_eq_of_lt hv]
      rw [lor_mul_pow v shift (by omega)]
      simp
    · simp only [h, dif_neg, not_false_iff]
      have hvge : 128 ≤ v := by
        rcases Nat.lt_or_ge v 128 with hlt | hge
        · exact absurd (Nat.div_eq_of_lt hlt) h
        · exact hge
      have hmod : v % 128 < 128 := Nat.mod_lt v (by norm_num)
      simp only [uleb128_decodeAux]
      have hb127 : (v % 128 + 128) &&& 127 = v % 128 := by
        rw [and_127_eq_mod, Nat.add_mod_right]
        omega
      have hb128 : (v % 128 + 128) &&& 128 ≠ 0 :=
        and_128_ne_zero (by omega) (by omega)
      rw [if_neg hb128]
      have hshift : ¬ 64 ≤ shift + 7 := by
        intro hc
        have h1 : 2 ^ (shift + 7) ≤ v * 2 ^ shift := by
          have : (2 : Nat) ^ (shift + 7) = 128 * 2 ^ shift := by ring
          rw [this]
          exact Nat.mul_le_mul_right _ hvge
        have h2 : U64 ≤ 2 ^ (shift + 7) := Nat.pow_le_pow_right (by norm_num) hc
        omega
      rw [if_neg hshift]
      have hpart : ((v % 128) <<< shift) % U64 = (v % 128) * 2 ^ shift := by
        rw [Nat.shiftLeft_eq, Nat.mod_eq_of_lt]
        calc (v % 128) * 2 ^ shift ≤ v * 2 ^ shift :=
              Nat.mul_le_mul_right _ (Nat.mod_le v 128)
          _ < U64 := hv
      rw [hb127, hpart]
      have hor : result ||| (v % 128) * 2 ^ shift =
          result + (v % 128) * 2 ^ shift := lor_mul_pow _ _ hr
      rw [hor]
      have hrec := ih (v / 128) (Nat.div_lt_self (by omega) (by norm_num))
        (result + (v % 128) * 2 ^ shift) (shift + 7) (i + 1)
        (by
          have hle : v / 128 * 2 ^ (shift + 7) ≤ v * 2 ^ shift := by
            have he : (2 : Nat) ^ (shift + 7) = 128 * 2 ^ shift := by ring
            rw [he, ← Nat.mul_assoc]
            exact Nat.mul_le_mul_right _ (Nat.div_mul_le_self v 128)
          exact lt_of_le_of_lt hle hv)
        (by
          have he : (2 : Nat) ^ (shift + 7) = 2 ^ shift * 128 := by ring
          rw [he]
          calc result + (v % 128) * 2 ^ shift
              < 2 ^ shift + (v % 128) * 2 ^ shift := by omega
            _ ≤ 2 ^ shift + 127 * 2 ^ shift := by
                have := Nat.mul_le_mul_right (2 ^ shift) (show v % 128 ≤ 127 by omega)
                omega
            _ = 2 ^ shift * 128 := by ring)
      rw [hrec]
      have harith : result + (v % 128) * 2 ^ shift + v / 128 * 2 ^ (shift + 7) =
          result + v * 2 ^ shift := by
        have he : (2 : Nat) ^ (shift + 7) = 128 * 2 ^ shift := by ring
        rw [he]
        have hdm : 128 * (v / 128) + v % 128 = v := Nat.div_add_mod v 128
        calc result + (v % 128) * 2 ^ shift + v / 128 * (128 * 2 ^ shift)
            = result + (v % 128 + 128 * (v / 128)) * 2 ^ shift := by ring
          _ = result + v * 2 ^ shift := by rw [show v % 128 + 128 * (v / 128) = v by omega]
      rw [harith]
      have hlen : i + 1 + (uleb128_encode (v / 128)).length =
          i + ((v % 128 + 128) :: uleb128_encode (v / 128)).length := by
        simp only [List.length_cons]
        omega
      rw [hlen]

/-- Decoding any buffer whose bytes all carry the continuation bit fails. -/
theorem uleb128_decodeAux_none_of_cont : ∀ (data : List Nat) (result shift i : Nat),
    (∀ b ∈ data, b &&& 128 ≠ 0) → uleb128_decodeAux data result shift i = none := by
  intro data
  induction data with
  | nil => intro _ _ _ _; rfl
  | cons b rest ih =>
    intro result shift i hall
    simp only [uleb128_decodeAux]
    rw [if_neg (hall b (by simp))]
    by_cases hs : 64 ≤ shift + 7
    · rw [if_pos hs]
    · rw [if_neg hs]
      exact ih _ _ _ (fun x hx => hall x (by simp [hx]))

/-- Every byte of the encoding except the last lies in `[128, 256)`. -/
theorem uleb128_encode_dropLast (v : Nat) :
    ∀ b ∈ (uleb128_encode v).dropLast, 128 ≤ b ∧ b < 256 := by
  induction v using Nat.strong_induction_on with
  | _ v ih =>
    intro b hb
    rw [uleb128_encode] at hb
    by_cases h : v / 128 = 0
    · simp [h] at hb
    · simp only [h, dif_neg, not_false_iff] at hb
      rw [List.dropLast_cons_of_ne_nil (uleb128_encode_ne_nil _)] at hb
      rcases List.mem_cons.mp hb with hb1 | hb2
      · subst hb1
        have : v % 128 < 128 := Nat.mod_lt v (by norm_num)
        omega
      · exact ih (v / 128) (Nat.div_lt_self (by omega) (by norm_num)) b hb2

/-- **C1.** Varint codec round-trip: for every `u64` value `v`,
`uleb128_decode` applied to the bytes of `uleb128_encode v` succeeds,
yields `v`, and reports a consumed count equal to the length of the
encoding; and decoding any proper truncation of the encoding (a
buffer ending on a byte with the continuation bit set) fails cleanly
with `ok = false` — the decoder, defined by structural recursion on
the buffer, never reads past the given length. -/
theorem c1_uleb128_roundtrip (v : Nat) (hv : v < U64) :
    uleb128_decode (uleb128_encode v) = some (v, (uleb128_encode v).length) ∧
    ∀ k, k < (uleb128_encode v).length →
      uleb128_decode ((uleb128_encode v).take k) = none := by
  constructor
  · have h := uleb128_decodeAux_encode v 0 0 0 (by simpa using hv) (by norm_num)
    simpa using h
  · intro k hk
    apply uleb128_decodeAux_none_of_cont
    intro b hb
    have hmem : b ∈ (uleb128_encode v).dropLast := by
      have hsub : (uleb128_encode v).take k ⊆ (uleb128_encode v).dropLast := by
        rw [List.dropLast_eq_take]
        intro x hx
        have : (uleb128_encode v).take k =
            ((uleb128_encode v).take ((uleb128_encode v).length - 1)).take k := by
          rw [List.take_take]
          congr 1
          omega
        rw [this] at hx
        exact List.take_subset _ _ hx
      exact hsub hb
    obtain ⟨h1, h2⟩ := uleb128_encode_dropLast v b hmem
    exact and_128_ne_zero h1 h2

/-- Witness for C1 at `v = 300`: the encoding is two bytes, decoding
returns `(300, 2)`, and the one-byte truncation fails. -/
theorem c1_uleb128_roundtrip_witness :
    uleb128_decode (uleb128_encode 300) = some (300, (uleb128_encode 300).length) ∧
    uleb128_decode ((uleb128_encode 300).take 1) = none := by
  obtain ⟨h1, h2⟩ := c1_uleb128_roundtrip 300 (by norm_num [U64])
  refine ⟨h1, h2 1 ?_⟩
  rw [uleb128_encode, uleb128_encode]
  norm_num

/-- Bytes beyond the point where the shift budget is exhausted are
never examined: appending anything after a long-enough window does not
change the result. -/
theorem uleb128_decodeAux_append : ∀ (data rest : List Nat) (r shift i : Nat),
    shift < 64 → 64 ≤ shift + 7 * data.length →
    uleb128_decodeAux (data ++ rest) r shift i = uleb128_decodeAux data r shift i := by
  intro data
  induction data with
  | nil => intro rest r shift i h1 h2; simp at h2; omega
  | cons b ds ih =>
    intro rest r shift i h1 h2
    simp only [List.cons_append, uleb128_decodeAux]
    by_cases hb : b &&& 128 = 0
    · rw [if_pos hb, if_pos hb]
    · rw [if_neg hb, if_neg hb]
      by_cases hs : 64 ≤ shift + 7
      · rw [if_pos hs, if_pos hs]
      · rw [if_neg hs, if_neg hs]
        apply ih
        · omega
        · simp only [List.length_cons] at h2
          omega

/-- The consumed count reported by the decoder is bounded by the
start index plus the number of bytes available. -/
theorem uleb128_decodeAux_consumed : ∀ (data : List Nat) (r shift i v c : Nat),
    uleb128_decodeAux data r shift i = some (v, c) → c ≤ i + data.length := by
  intro data
  induction data with
  | nil => intro r shift i v c h; simp [uleb128_decodeAux] at h
  | cons b ds ih =>
    intro r shift i v c h
    simp only [uleb128_decodeAux] at h
    by_cases hb : b &&& 128 = 0
    · rw [if_pos hb] at h
      simp only [Option.some.injEq, Prod.mk.injEq] at h
      simp only [List.length_cons]
      omega
    · rw [if_neg hb] at h
      by_cases hs : 64 ≤ shift + 7
      · rw [if_pos hs] at h; exact absurd h (by simp)
      · rw [if_neg hs] at h
        have := ih _ _ _ _ _ h
        simp only [List.length_cons]
        omega

/-- **C9.** Bounded varint decoding: `uleb128_decode` never examines
more than 10 input bytes regardless of the supplied length (its result
on any buffer equals its result on the first 10 bytes); if the first
10 bytes all carry the continuation bit it fails with `ok = false`
(the accumulated shift reaches 64); and any successful decode reports
a consumed count of at most 10, so no encoding longer than 10 bytes is
accepted. -/
theorem c9_uleb128_decode_bounded (data : List Nat) :
    uleb128_decode data = uleb128_decode (data.take 10) ∧
    ((∀ b ∈ data.take 10, b &&& 128 ≠ 0) → uleb128_decode data = none) ∧
    (∀ v c, uleb128_decode data = some (v, c) → c ≤ 10) := by
  have htake : uleb128_decode data = uleb128_decode (data.take 10) := by
    rcases le_or_lt data.length 10 with hle | hgt
    · rw [List.take_of_length_le hle]
    · have hsplit : data = data.take 10 ++ data.drop 10 := (List.take_append_drop 10 data).symm
      have hlen : (data.take 10).length = 10 := by
        rw [List.length_take]
        omega
      conv_lhs => rw [hsplit]
      unfold uleb128_decode
      apply uleb128_decodeAux_append
      · omega
      · rw [hlen]
        omega

  refine ⟨htake, ?_, ?_⟩
  · intro hcont
    rw [htake]
    exact uleb128_decodeAux_none_of_cont _ 0 0 0 hcont
  · intro v c hsome
    rw [htake] at hsome
    have := uleb128_decodeAux_consumed _ 0 0 0 v c hsome
    have hlen : (data.take 10).length ≤ 10 := by
      rw [List.length_take]
      omega
    omega

/-- Witness for C9: ten continuation bytes followed by a terminator
still fail to decode (`ok = false`), because only the first 10 bytes
are ever examined. -/
theorem c9_uleb128_decode_bounded_witness :
    uleb128_decode (List.replicate 10 128 ++ [0]) = none :=
  (c9_uleb128_decode_bounded (List.replicate 10 128 ++ [0])).2.1 (by decide)

/-! ## Hexflow formatter: claim C10 -/

/-- **C10.** Hexflow byte formatting: for every byte `c` and every
prior-byte state, `print_byte` writes `c` itself when `c` is
printable, preceded by exactly one space if and only if the
immediately preceding byte was non-printable; writes the escapes
`\n`, `\r`, `\t` preceded by a space for newline, carriage return and
tab; writes a space followed by exactly two zero-padded lowercase hex
digits for every other byte; and afterwards the state flag records
whether `c` was non-printable — i.e. the formatter agrees with the
specification's description `hexflowSpec` on every byte and state. -/
theorem c10_print_byte_matches_spec (c : Nat) (st : Bool) :
    print_byte c st = hexflowSpec c st := by
  unfold print_byte hexflowSpec isprint
  by_cases hp : (32 ≤ c && c ≤ 126) = true
  · cases st <;> simp [hp]
  · have hp2 : (32 ≤ c && c ≤ 126) = false := by
      revert hp
      cases (32 ≤ c && c ≤ 126) <;> simp
    cases st <;> simp [hp2]

/-! ## Teardown idempotence: claim C5 -/

/-- After one `cleanup` under the program's descriptor invariants,
every owned resource field is `-1` and `did_cleanup` is set. -/
theorem cleanup_state_after (s : CapState)
    (hm : -1 ≤ s.masterFd) (h0 : -1 ≤ s.winch0) (h1 : -1 ≤ s.winch1)
    (hc : s.child_pid = -1 ∨ 0 < s.child_pid) :
    (cleanup s).1 = { s with masterFd := -1, winch0 := -1, winch1 := -1,
                             child_pid := -1, did_cleanup := true } := by
  have e0 : (if s.winch0 ≥ 0 then (-1 : Int) else s.winch0) = -1 := by
    split_ifs <;> omega
  have e1 : (if s.winch1 ≥ 0 then (-1 : Int) else s.winch1) = -1 := by
    split_ifs <;> omega
  have e2 : (if s.masterFd ≥ 0 then (-1 : Int) else s.masterFd) = -1 := by
    split_ifs <;> omega
  have e3 : (if s.child_pid > 0 then (-1 : Int) else s.child_pid) = -1 := by
    rcases hc with h | h <;> split_ifs <;> omega
  simp only [cleanup, e0, e1, e2, e3]

/-- A state whose resource fields are all `-1` makes `cleanup` a
pure no-op apart from `did_cleanup`: no actions at all. -/
theorem cleanup_noop (s : CapState) (hm : s.masterFd = -1) (h0 : s.winch0 = -1)
    (h1 : s.winch1 = -1) (hc : s.child_pid = -1) :
    cleanup s = ({ s with did_cleanup := true }, []) := by
  simp [cleanup, hm, h0, h1, hc]

/-- **C5.** Idempotent teardown: running `cleanup` a second time in
succession performs no descriptor or process action at all (no second
close of the master or wake-channel descriptors, no second
kill/reap); after the first call `masterFd`, both self-pipe
descriptors and `child_pid` are all `-1`, so every close/kill branch
is skipped on the second call and the second call leaves the state
unchanged; over both calls the master descriptor is closed exactly
once (when it was open at all). -/
theorem c5_cleanup_idempotent (s : CapState)
    (hm : -1 ≤ s.masterFd) (h0 : -1 ≤ s.winch0) (h1 : -1 ≤ s.winch1)
    (hc : s.child_pid = -1 ∨ 0 < s.child_pid)
    (hd0 : 0 ≤ s.masterFd → s.winch0 ≠ s.masterFd)
    (hd1 : 0 ≤ s.masterFd → s.winch1 ≠ s.masterFd) :
    (cleanup s).1.masterFd = -1 ∧ (cleanup s).1.winch0 = -1 ∧
    (cleanup s).1.winch1 = -1 ∧ (cleanup s).1.child_pid = -1 ∧
    (cleanup (cleanup s).1).2 = [] ∧
    (cleanup (cleanup s).1).1 = (cleanup s).1 ∧
    ((cleanup s).2 ++ (cleanup (cleanup s).1).2).countP
        (fun a => decide (a = FdAction.closeFd s.masterFd)) =
      (if 0 ≤ s.masterFd then 1 else 0) := by
  have hafter := cleanup_state_after s hm h0 h1 hc
  have hsecond : cleanup (cleanup s).1 = ({ (cleanup s).1 with did_cleanup := true }, []) := by
    apply cleanup_noop <;> rw [hafter]
  have hdid : (cleanup s).1.did_cleanup = true := by rw [hafter]
  refine ⟨by rw [hafter], by rw [hafter], by rw [hafter], by rw [hafter],
    by rw [hsecond], ?_, ?_⟩
  · rw [hsecond]
    have : ({ (cleanup s).1 with did_cleanup := true } : CapState) = (cleanup s).1 := by
      rw [hafter]
    rw [this]
  · rw [hsecond]
    simp only [List.append_nil]
    have hacts : (cleanup s).2 =
        (if s.winch0 ≥ 0 then [FdAction.closeFd s.winch0] else []) ++
        (if s.winch1 ≥ 0 then [FdAction.closeFd s.winch1] else []) ++
        (if s.masterFd ≥ 0 then [FdAction.closeFd s.masterFd] else []) ++
        (if s.child_pid > 0 then [FdAction.kill s.child_pid, FdAction.reap s.child_pid] else []) := by
      simp only [cleanup]
    rw [hacts]
    simp only [List.countP_append]
    have cnt0 : (if s.winch0 ≥ 0 then [FdAction.closeFd s.winch0] else []).countP
        (fun a => decide (a = FdAction.closeFd s.masterFd)) = 0 := by
      split_ifs with h
      · simp only [List.countP_cons, List.countP_nil]
        have : s.winch0 ≠ s.masterFd := by
          by_cases hmf : 0 ≤ s.masterFd
          · exact hd0 hmf
          · omega
        simp [this]
      · simp
    have cnt1 : (if s.winch1 ≥ 0 then [FdAction.closeFd s.winch1] else []).countP
        (fun a => decide (a = FdAction.closeFd s.masterFd)) = 0 := by
      split_ifs with h
      · simp only [List.countP_cons, List.countP_nil]
        have : s.winch1 ≠ s.masterFd := by
          by_cases hmf : 0 ≤ s.masterFd
          · exact hd1 hmf
          · omega
        simp [this]
      · simp
    have cnt2 : (if s.masterFd ≥ 0 then [FdAction.closeFd s.masterFd] else []).countP
        (fun a => decide (a = FdAction.closeFd s.masterFd)) =
        (if 0 ≤ s.masterFd then 1 else 0) := by
      split_ifs with h
      · simp
      · simp
    have cnt3 : (if s.child_pid > 0 then
        [FdAction.kill s.child_pid, FdAction.reap s.child_pid] else []).countP
        (fun a => decide (a = FdAction.closeFd s.masterFd)) = 0 := by
      split_ifs with h <;> simp
    rw [cnt0, cnt1, cnt2, cnt3]
    split_ifs <;> simp

/-- Witness for C5 with all resources live. -/
theorem c5_cleanup_idempotent_witness :
    (cleanup ⟨true, 5, 42, 3, 4, false, false⟩).1.masterFd = -1 ∧
    (cleanup ⟨true, 5, 42, 3, 4, false, false⟩).1.winch0 = -1 ∧
    (cleanup ⟨true, 5, 42, 3, 4, false, false⟩).1.winch1 = -1 ∧
    (cleanup ⟨true, 5, 42, 3, 4, false, false⟩).1.child_pid = -1 ∧
    (cleanup (cleanup ⟨true, 5, 42, 3, 4, false, false⟩).1).2 = [] ∧
    (cleanup (cleanup ⟨true, 5, 42, 3, 4, false, false⟩).1).1 =
      (cleanup ⟨true, 5, 42, 3, 4, false, false⟩).1 ∧
    ((cleanup ⟨true, 5, 42, 3, 4, false, false⟩).2 ++
        (cleanup (cleanup ⟨true, 5, 42, 3, 4, false, false⟩).1).2).countP
        (fun a => decide (a = FdAction.closeFd (5 : Int))) =
      (if (0 : Int) ≤ 5 then 1 else 0) :=
  c5_cleanup_idempotent ⟨true, 5, 42, 3, 4, false, false⟩
    (by norm_num) (by norm_num) (by norm_num) (by norm_num)
    (by norm_num) (by norm_num)

/-! ## Signal races: claim C3 (corrected) -/

/-- Counterexample to C3 as stated: a `SIGCHLD` for an unrelated
process (`waitpid` returns 42 while the tracked child is 7) does
request shutdown — the handler sets `should_exit` unconditionally, so
the loop will not keep running; moreover, before a child pid is
recorded (`child_pid = -1`), a `SIGCHLD` with `waitpid` reporting no
children (returning `-1`, which equals the sentinel) invokes full
teardown and exit. -/
theorem c3_counterexample :
    ((42 : Int) ≠ (7 : Int) ∧
      (signal_handler SIGCHLD 42 ⟨true, 5, 7, 3, 4, false, false⟩).1.should_exit = true) ∧
    ((signal_handler SIGCHLD (-1) ⟨true, 5, -1, 3, 4, false, false⟩).1.did_cleanup = true ∧
      (signal_handler SIGCHLD (-1) ⟨true, 5, -1, 3, 4, false, false⟩).2.2 = true) := by
  decide

/-- **C3 (amended).** When `SIGCHLD` is delivered and `waitpid`
returns a pid different from the tracked child, the handler performs
no teardown action and does not exit — but it does set the shutdown
flag (`should_exit`), which the loop observes, so the delivery is not
simply ignored; and when `SIGCHLD` arrives before a child pid is
recorded (`child_pid = -1`) and `waitpid` reports no children
(returns `-1`), the sentinel comparison matches and the handler does
invoke teardown and exit. -/
theorem c3_signal_race_amended (s : CapState) (ret : Int) (hne : ret ≠ s.child_pid) :
    signal_handler SIGCHLD ret s = ({ s with should_exit := true }, [], false) ∧
    (s.child_pid = -1 →
      (signal_handler SIGCHLD (-1) s).2.2 = true ∧
      (signal_handler SIGCHLD (-1) s).1.did_cleanup = true) := by
  constructor
  · unfold signal_handler
    rw [if_pos rfl]
    split_ifs with h
    · exact absurd h hne
    · rfl
  · intro hcp
    unfold signal_handler
    rw [if_pos rfl]
    split_ifs with h
    · simp [cleanup]
    · exact absurd (show (-1 : Int) = ({ s with should_exit := true } : CapState).child_pid by
        simpa using hcp.symm) h

/-- Witness for the amended C3 at an unrelated pid. -/
theorem c3_signal_race_amended_witness :
    signal_handler SIGCHLD 42 ⟨true, 5, 7, 3, 4, false, false⟩ =
      ({ (⟨true, 5, 7, 3, 4, false, false⟩ : CapState) with should_exit := true }, [], false) :=
  (c3_signal_race_amended ⟨true, 5, 7, 3, 4, false, false⟩ 42 (by norm_num)).1

/-! ## Sidecar degraded mode: claim C4 (corrected) -/

/-- Counterexample to C4 as stated: when a timing-index record write
fails mid-session (here the first `write_all` of an enabled sidecar),
the sidecar is *not* disabled and *no* warning is emitted — the
failure is silently swallowed (only the previous-record state stays
unchanged).  C4's claim that "for any ... record write failure ...
that sidecar is disabled, a warning is emitted" is therefore false on
the code. -/
theorem c4_counterexample :
    (write_tidx_record_io true 0 false true 100 10 ⟨0, 0⟩).2.2.1 = true ∧
    (write_tidx_record_io true 0 false true 100 10 ⟨0, 0⟩).2.2.2 = 0 ∧
    (write_tidx_record_io true 0 false true 100 10 ⟨0, 0⟩).2.1 = ⟨0, 0⟩ := by
  decide

/-- **C4 (amended).** Sidecar failures are recovered locally and are
never fatal.  At setup: if the primary raw logs open, the session
proceeds (no error exit) for every combination of sidecar outcomes;
a tidx header-write failure disables both tidx sidecars with a
warning; a tidx open failure emits a warning (the failed descriptor
being already absent); an events open or header failure leaves the
events sidecar disabled with a warning.  Mid-session, a record write
failure does *not* disable the sidecar and emits *no* warning: the
record is dropped (previous-record state unchanged) and capture
simply continues.  In no case does a sidecar failure terminate the
session. -/
theorem c4_sidecar_failures_nonfatal (io oo eo th eh : Bool) (w1 w2 : Bool)
    (t off : Nat) (p : PrevState) (hw : w1 = false ∨ w2 = false) :
    (session_setup true io oo eo th eh =
      Except.ok (sidecar_setup io oo eo th eh)) ∧
    ((io && oo) = true → th = false →
      (sidecar_setup io oo eo th eh).input_tidx_enabled = false ∧
      (sidecar_setup io oo eo th eh).output_tidx_enabled = false ∧
      1 ≤ (sidecar_setup io oo eo th eh).warnings) ∧
    ((io && oo) = false → 1 ≤ (sidecar_setup io oo eo th eh).warnings) ∧
    (eo = false ∨ eh = false →
      (sidecar_setup io oo eo th eh).events_enabled = false ∧
      1 ≤ (sidecar_setup io oo eo th eh).warnings) ∧
    ((write_tidx_record_io true 0 w1 w2 t off p).2.2.1 = true ∧
      (write_tidx_record_io true 0 w1 w2 t off p).2.2.2 = 0 ∧
      (write_tidx_record_io true 0 w1 w2 t off p).2.1 = p) := by
  refine ⟨rfl, ?_, ?_, ?_, ?_⟩
  · revert io oo eo th eh
    decide
  · revert io oo eo th eh
    decide
  · revert io oo eo th eh
    decide
  · rcases hw with hw | hw <;> subst hw
    · exact ⟨rfl, rfl, rfl⟩
    · cases w1 <;> exact ⟨rfl, rfl, rfl⟩

/-- Witness for the amended C4: output tidx open fails, the events
header write fails, and a mid-session record write fails — warnings
are emitted for the setup failures, nothing is fatal, and the failed
record write leaves its sidecar enabled with no warning. -/
theorem c4_sidecar_failures_nonfatal_witness :
    (session_setup true true false true true false =
      Except.ok (sidecar_setup true false true true false)) ∧
    ((sidecar_setup true false true true false).events_enabled = false ∧
      1 ≤ (sidecar_setup true false true true false).warnings) ∧
    ((write_tidx_record_io true 0 false true 7 3 ⟨0, 0⟩).2.2.1 = true ∧
      (write_tidx_record_io true 0 false true 7 3 ⟨0, 0⟩).2.2.2 = 0 ∧
      (write_tidx_record_io true 0 false true 7 3 ⟨0, 0⟩).2.1 = ⟨0, 0⟩) := by
  obtain ⟨ha, hb, hc, hd, he⟩ :=
    c4_sidecar_failures_nonfatal true false true true false false true 7 3 ⟨0, 0⟩ (Or.inl rfl)
  exact ⟨ha, hd (Or.inr rfl), he⟩

/-! ## Relay-loop extraction lemmas -/

theorem run_cons (s : LoopState) (e : LoopEv) (rest : List LoopEv) :
    run s (e :: rest) = run (step s e) rest := rfl

/-- The loop body never touches the shutdown or teardown flags — no
wake-up (data, EOF, or resize) terminates the loop by itself. -/
theorem run_flags : ∀ (evs : List LoopEv) (s : LoopState),
    (run s evs).should_exit = s.should_exit ∧ (run s evs).did_cleanup = s.did_cleanup := by
  intro evs
  induction evs with
  | nil => intro s; exact ⟨rfl, rfl⟩
  | cons e rest ih =>
    intro s
    rw [run_cons]
    obtain ⟨ih1, ih2⟩ := ih (step s e)
    rw [ih1, ih2]
    cases e with
    | stdinData t bytes =>
      by_cases ho : s.stdin_open
      · cases bytes <;> simp [step, ho]
      · simp [step, ho]
    | masterData t bytes => cases bytes <;> simp [step]
    | winch t cols rows => simp [step]

/-- What the loop does to the output stream is exactly a replay of
the timing-index writer over the non-empty PTY-master chunks. -/
theorem run_output : ∀ (evs : List LoopEv) (s : LoopState),
    (run s evs).outputLog = s.outputLog ++ outBytes evs ∧
    (run s evs).output_end = (tidxRun s.output_end s.output_prev (outChunks evs)).1 ∧
    (run s evs).output_prev = (tidxRun s.output_end s.output_prev (outChunks evs)).2.1 ∧
    (run s evs).output_tidx =
      s.output_tidx ++ (tidxRun s.output_end s.output_prev (outChunks evs)).2.2 := by
  intro evs
  induction evs with
  | nil => intro s; simp [run, outBytes, outChunks, tidxRun]
  | cons e rest ih =>
    intro s
    rw [run_cons]
    obtain ⟨ih1, ih2, ih3, ih4⟩ := ih (step s e)
    cases e with
    | stdinData t bytes =>
      have hf : (step s (.stdinData t bytes)).outputLog = s.outputLog ∧
          (step s (.stdinData t bytes)).output_end = s.output_end ∧
          (step s (.stdinData t bytes)).output_prev = s.output_prev ∧
          (step s (.stdinData t bytes)).output_tidx = s.output_tidx := by
        by_cases ho : s.stdin_open
        · cases bytes <;> simp [step, ho]
        · simp [step, ho]
      rw [ih1, ih2, ih3, ih4, hf.1, hf.2.1, hf.2.2.1, hf.2.2.2]
      simp [outBytes, outChunks]
    | winch t cols rows =>
      rw [ih1, ih2, ih3, ih4]
      simp [step, outBytes, outChunks]
    | masterData t bytes =>
      cases bytes with
      | nil =>
        rw [ih1, ih2, ih3, ih4]
        simp [step, outBytes, outChunks]
      | cons b bs =>
        rw [ih1, ih2, ih3, ih4]
        simp only [step, outBytes, outChunks, tidxRun, List.append_assoc,
          List.singleton_append, List.cons_append, List.nil_append]
        exact ⟨trivial, trivial, trivial, trivial⟩

/-- What the loop does to the input stream is a replay of the
timing-index writer over the standard-input chunks read while stdin
was still monitored; the monitoring flag itself evolves as
`stdinOpenAfter`. -/
theorem run_input : ∀ (evs : List LoopEv) (s : LoopState),
    (run s evs).stdin_open = stdinOpenAfter s.stdin_open evs ∧
    (run s evs).inputLog = s.inputLog ++ inBytes s.stdin_open evs ∧
    (run s evs).input_end = (tidxRun s.input_end s.input_prev (inChunks s.stdin_open evs)).1 ∧
    (run s evs).input_prev = (tidxRun s.input_end s.input_prev (inChunks s.stdin_open evs)).2.1 ∧
    (run s evs).input_tidx =
      s.input_tidx ++ (tidxRun s.input_end s.input_prev (inChunks s.stdin_open evs)).2.2 := by
  intro evs
  induction evs with
  | nil => intro s; simp [run, stdinOpenAfter, inBytes, inChunks, tidxRun]
  | cons e rest ih =>
    intro s
    rw [run_cons]
    cases e with
    | stdinData t bytes =>
      cases ho : s.stdin_open with
      | false =>
        have hstep : step s (.stdinData t bytes) = s := by simp [step, ho]
        rw [hstep]
        obtain ⟨j1, j2, j3, j4, j5⟩ := ih s
        rw [j1, j2, j3, j4, j5, ho]
        simp [stdinOpenAfter, inBytes, inChunks]
      | true =>
        cases bytes with
        | nil =>
          have hstep : step s (.stdinData t []) = { s with stdin_open := false } := by
            simp [step, ho]
          rw [hstep]
          obtain ⟨j1, j2, j3, j4, j5⟩ := ih { s with stdin_open := false }
          rw [j1, j2, j3, j4, j5]
          simp [stdinOpenAfter, inBytes, inChunks, ho]
        | cons b bs =>
          obtain ⟨j1, j2, j3, j4, j5⟩ := ih (step s (.stdinData t (b :: bs)))
          rw [j1, j2, j3, j4, j5]
          simp only [step, ho, if_pos, stdinOpenAfter, inBytes, inChunks, tidxRun,
            List.append_assoc, List.singleton_append, List.cons_append, List.nil_append]
          exact ⟨trivial, trivial, trivial, trivial, trivial⟩
    | masterData t bytes =>
      obtain ⟨j1, j2, j3, j4, j5⟩ := ih (step s (.masterData t bytes))
      have hf : (step s (.masterData t bytes)).stdin_open = s.stdin_open ∧
          (step s (.masterData t bytes)).inputLog = s.inputLog ∧
          (step s (.masterData t bytes)).input_end = s.input_end ∧
          (step s (.masterData t bytes)).input_prev = s.input_prev ∧
          (step s (.masterData t bytes)).input_tidx = s.input_tidx := by
        cases bytes <;> simp [step]
      rw [j1, j2, j3, j4, j5, hf.1, hf.2.1, hf.2.2.1, hf.2.2.2.1, hf.2.2.2.2]
      cases ho : s.stdin_open <;> simp [stdinOpenAfter, inBytes, inChunks]
    | winch t cols rows =>
      obtain ⟨j1, j2, j3, j4, j5⟩ := ih (step s (.winch t cols rows))
      have hf : (step s (.winch t cols rows)).stdin_open = s.stdin_open ∧
          (step s (.winch t cols rows)).inputLog = s.inputLog ∧
          (step s (.winch t cols rows)).input_end = s.input_end ∧
          (step s (.winch t cols rows)).input_prev = s.input_prev ∧
          (step s (.winch t cols rows)).input_tidx = s.input_tidx := by
        simp [step]
      rw [j1, j2, j3, j4, j5, hf.1, hf.2.1, hf.2.2.1, hf.2.2.2.1, hf.2.2.2.2]
      cases ho : s.stdin_open <;> simp [stdinOpenAfter, inBytes, inChunks]

/-- What the loop does to the resize-event stream is a replay of the
resize writer over the window-size changes taken at the output
stream's running offset. -/
theorem run_resize : ∀ (evs : List LoopEv) (s : LoopState),
    (run s evs).events_prev = (resizeRun s.events_prev (resizeChunks s.output_end evs)).1 ∧
    (run s evs).resize_events =
      s.resize_events ++ (resizeRun s.events_prev (resizeChunks s.output_end evs)).2 := by
  intro evs
  induction evs with
  | nil => intro s; simp [run, resizeChunks, resizeRun]
  | cons e rest ih =>
    intro s
    rw [run_cons]
    obtain ⟨ih1, ih2⟩ := ih (step s e)
    cases e with
    | stdinData t bytes =>
      have hf : (step s (.stdinData t bytes)).events_prev = s.events_prev ∧
          (step s (.stdinData t bytes)).resize_events = s.resize_events ∧
          (step s (.stdinData t bytes)).output_end = s.output_end := by
        by_cases ho : s.stdin_open
        · cases bytes <;> simp [step, ho]
        · simp [step, ho]
      rw [ih1, ih2, hf.1, hf.2.1, hf.2.2]
      cases bytes <;> exact ⟨rfl, rfl⟩
    | masterData t bytes =>
      cases bytes with
      | nil =>
        have hf : (step s (.masterData t [])).events_prev = s.events_prev ∧
            (step s (.masterData t [])).resize_events = s.resize_events ∧
            (step s (.masterData t [])).output_end = s.output_end := by simp [step]
        rw [ih1, ih2, hf.1, hf.2.1, hf.2.2]
        exact ⟨rfl, rfl⟩
      | cons b bs =>
        rw [ih1, ih2]
        simp only [step, resizeChunks]
        exact ⟨trivial, trivial⟩
    | winch t cols rows =>
      rw [ih1, ih2]
      simp only [step, resizeChunks, resizeRun, List.append_assoc,
        List.singleton_append, List.cons_append, List.nil_append]
      exact ⟨trivial, trivial⟩

/-! ## Single-stream timing-index lemmas -/

/-- Replaying the timing-index writer over well-formed chunks (times
non-decreasing, sizes positive, no `uint64_t` overflow) advances the
offset by the total size, keeps the previous-record state in sync,
and produces records whose cumulative-sum reconstruction is exactly
the absolute (clock, offset) sequence of the chunks. -/
theorem tidxRun_spec : ∀ (chunks : List (Nat × Nat)) (endOff : Nat) (p : PrevState) (c : Nat),
    chunkTimesMono c chunks = true →
    (∀ ch ∈ chunks, 1 ≤ ch.2) →
    p.prev_t ≤ c → p.prev_end = endOff →
    endOff + chunksTotal chunks < U64 →
    (tidxRun endOff p chunks).1 = endOff + chunksTotal chunks ∧
    (tidxRun endOff p chunks).2.1.prev_end = endOff + chunksTotal chunks ∧
    reconstruct p.prev_t endOff (tidxRun endOff p chunks).2.2 = absChunks endOff chunks ∧
    (tidxRun endOff p chunks).2.2.length = chunks.length := by
  intro chunks
  induction chunks with
  | nil =>
    intro endOff p c _ _ _ hpe hov
    simp [tidxRun, chunksTotal, reconstruct, absChunks, hpe]
  | cons ch rest ih =>
    obtain ⟨t, n⟩ := ch
    intro endOff p c hmono hpos hpt hpe hov
    simp only [chunkTimesMono, Bool.and_eq_true, decide_eq_true_eq] at hmono
    obtain ⟨⟨hct, htU⟩, hmono2⟩ := hmono
    have htot : chunksTotal ((t, n) :: rest) = n + chunksTotal rest := rfl
    rw [htot] at hov
    have hend2 : (endOff + n) % U64 = endOff + n := Nat.mod_eq_of_lt (by omega)
    have hdt : (if p.prev_t = 0 then t else u64sub t p.prev_t) = t - p.prev_t := by
      split_ifs with h
      · omega
      · exact u64sub_eq t p.prev_t (le_trans hpt hct) htU
    have hdend : (if p.prev_end = 0 then endOff + n else u64sub (endOff + n) p.prev_end) = n := by
      rw [hpe]
      split_ifs with h
      · omega
      · rw [u64sub_eq (endOff + n) endOff (by omega) (by omega)]
        omega
    obtain ⟨i1, i2, i3, i4⟩ := ih (endOff + n) ⟨t, endOff + n⟩ t hmono2
      (fun x hx => hpos x (by simp [hx])) (le_refl t) rfl (by omega)
    have hptt : p.prev_t + (t - p.prev_t) = t := by omega
    simp only [tidxRun, write_tidx_record, hend2, hdt, hdend]
    refine ⟨?_, ?_, ?_, ?_⟩
    · rw [i1, htot]
      omega
    · rw [i2, htot]
      omega
    · simp only [reconstruct, absChunks, hptt]
      rw [i3]
    · simp only [List.length_cons, i4]

/-- The absolute records of a monotone chunk list form a sequence
that is non-decreasing in both components, and every record is at or
after the starting clock and offset. -/
theorem absChunks_props : ∀ (chunks : List (Nat × Nat)) (c endOff : Nat),
    chunkTimesMono c chunks = true →
    List.Chain' (fun a b => a.1 ≤ b.1 ∧ a.2 ≤ b.2) (absChunks endOff chunks) ∧
    ∀ x ∈ absChunks endOff chunks, c ≤ x.1 ∧ endOff ≤ x.2 := by
  intro chunks
  induction chunks with
  | nil => intro c endOff _; simp [absChunks]
  | cons ch rest ih =>
    obtain ⟨t, n⟩ := ch
    intro c endOff hmono
    simp only [chunkTimesMono, Bool.and_eq_true, decide_eq_true_eq] at hmono
    obtain ⟨⟨hct, htU⟩, hmono2⟩ := hmono
    obtain ⟨ihc, ihm⟩ := ih t (endOff + n) hmono2
    have habs : absChunks endOff ((t, n) :: rest) =
        (t, endOff + n) :: absChunks (endOff + n) rest := rfl
    rw [habs]
    constructor
    · rw [List.chain'_cons']
      refine ⟨?_, ihc⟩
      intro y hy
      obtain ⟨hy1, hy2⟩ := ihm y (List.mem_of_mem_head? hy)
      exact ⟨hy1, by omega⟩
    · intro x hx
      rcases List.mem_cons.mp hx with hx1 | hx2
      · subst hx1
        exact ⟨hct, by omega⟩
      · obtain ⟨hx1, hx2⟩ := ihm x hx2
        exact ⟨by omega, by omega⟩

/-- The last absolute offset of a chunk list is the starting offset
plus the total size. -/
theorem absChunks_getLastD : ∀ (chunks : List (Nat × Nat)) (endOff : Nat) (d : Nat × Nat),
    d.2 = endOff →
    ((absChunks endOff chunks).getLastD d).2 = endOff + chunksTotal chunks := by
  intro chunks
  induction chunks with
  | nil => intro endOff d hd; simp [absChunks, chunksTotal, hd]
  | cons ch rest ih =>
    obtain ⟨t, n⟩ := ch
    intro endOff d hd
    have habs : absChunks endOff ((t, n) :: rest) =
        (t, endOff + n) :: absChunks (endOff + n) rest := rfl
    rw [habs, List.getLastD_cons, ih (endOff + n) (t, endOff + n) rfl]
    have htot : chunksTotal ((t, n) :: rest) = n + chunksTotal rest := rfl
    rw [htot]
    omega

/-- Relaxing the starting bound of `chunkTimesMono`. -/
theorem chunkTimesMono_mono : ∀ (l : List (Nat × Nat)) (c c' : Nat), c' ≤ c →
    chunkTimesMono c l = true → chunkTimesMono c' l = true := by
  intro l
  cases l with
  | nil => intros; rfl
  | cons ch rest =>
    obtain ⟨t, n⟩ := ch
    intro c c' hle h
    simp only [chunkTimesMono, Bool.and_eq_true, decide_eq_true_eq] at h ⊢
    exact ⟨⟨by omega, h.1.2⟩, h.2⟩

/-! ## Trace-projection transport lemmas -/

theorem inChunks_false : ∀ evs : List LoopEv, inChunks false evs = [] := by
  intro evs
  induction evs with
  | nil => rfl
  | cons e rest ih => rw [inChunks, ih]

theorem inBytes_false : ∀ evs : List LoopEv, inBytes false evs = [] := by
  intro evs
  induction evs with
  | nil => rfl
  | cons e rest ih => rw [inBytes, ih]

theorem stdinOpenAfter_false : ∀ evs : List LoopEv, stdinOpenAfter false evs = false := by
  intro evs
  induction evs with
  | nil => rfl
  | cons e rest ih => rw [stdinOpenAfter, ih]

theorem timesMono_outChunks : ∀ (evs : List LoopEv) (c : Nat),
    timesMono c evs = true → chunkTimesMono c (outChunks evs) = true := by
  intro evs
  induction evs with
  | nil => intros; rfl
  | cons e rest ih =>
    intro c h
    simp only [timesMono, Bool.and_eq_true, decide_eq_true_eq] at h
    obtain ⟨⟨hc, hU⟩, h2⟩ := h
    have hrest := ih (evTime e) h2
    cases e with
    | stdinData t bytes =>
      rw [outChunks]
      exact chunkTimesMono_mono _ _ _ hc hrest
    | winch t cols rows =>
      rw [outChunks]
      exact chunkTimesMono_mono _ _ _ hc hrest
    | masterData t bytes =>
      cases bytes with
      | nil =>
        rw [outChunks]
        exact chunkTimesMono_mono _ _ _ hc hrest
      | cons b bs =>
        rw [outChunks]
        simp only [chunkTimesMono, Bool.and_eq_true, decide_eq_true_eq]
        exact ⟨⟨hc, hU⟩, hrest⟩

theorem timesMono_inChunks : ∀ (evs : List LoopEv) (c : Nat) (o : Bool),
    timesMono c evs = true → chunkTimesMono c (inChunks o evs) = true := by
  intro evs
  induction evs with
  | nil => intros; cases ‹Bool› <;> rfl
  | cons e rest ih =>
    intro c o h
    simp only [timesMono, Bool.and_eq_true, decide_eq_true_eq] at h
    obtain ⟨⟨hc, hU⟩, h2⟩ := h
    have hrest := fun o => ih (evTime e) o h2
    cases o with
    | false => rw [inChunks_false]; rfl
    | true =>
      cases e with
      | stdinData t bytes =>
        cases bytes with
        | nil =>
          rw [inChunks]
          exact chunkTimesMono_mono _ _ _ hc (hrest false)
        | cons b bs =>
          rw [inChunks]
          simp only [chunkTimesMono, Bool.and_eq_true, decide_eq_true_eq]
          exact ⟨⟨hc, hU⟩, hrest true⟩
      | masterData t bytes =>
        rw [inChunks]
        exact chunkTimesMono_mono _ _ _ hc (hrest true)
      | winch t cols rows =>
        rw [inChunks]
        exact chunkTimesMono_mono _ _ _ hc (hrest true)

theorem outChunks_pos : ∀ (evs : List LoopEv), ∀ x ∈ outChunks evs, 1 ≤ x.2 := by
  intro evs
  induction evs with
  | nil => intro x hx; simp [outChunks] at hx
  | cons e rest ih =>
    intro x hx
    cases e with
    | stdinData t bytes => rw [outChunks] at hx; exact ih x hx
    | winch t cols rows => rw [outChunks] at hx; exact ih x hx
    | masterData t bytes =>
      cases bytes with
      | nil => rw [outChunks] at hx; exact ih x hx
      | cons b bs =>
        rw [outChunks] at hx
        rcases List.mem_cons.mp hx with h1 | h2
        · subst h1; simp
        · exact ih x h2

theorem inChunks_pos : ∀ (evs : List LoopEv) (o : Bool), ∀ x ∈ inChunks o evs, 1 ≤ x.2 := by
  intro evs
  induction evs with
  | nil => intro o x hx; cases o <;> simp [inChunks] at hx
  | cons e rest ih =>
    intro o x hx
    cases o with
    | false => rw [inChunks_false] at hx; simp at hx
    | true =>
      cases e with
      | stdinData t bytes =>
        cases bytes with
        | nil => rw [inChunks] at hx; exact ih false x hx
        | cons b bs =>
          rw [inChunks] at hx
          rcases List.mem_cons.mp hx with h1 | h2
          · subst h1; simp
          · exact ih true x h2
      | masterData t bytes => rw [inChunks] at hx; exact ih true x hx
      | winch t cols rows => rw [inChunks] at hx; exact ih true x hx

theorem chunksTotal_outChunks : ∀ evs : List LoopEv,
    chunksTotal (outChunks evs) = (outBytes evs).length := by
  intro evs
  induction evs with
  | nil => rfl
  | cons e rest ih =>
    cases e with
    | stdinData t bytes => rw [outChunks, outBytes, ih]
    | winch t cols rows => rw [outChunks, outBytes, ih]
    | masterData t bytes =>
      cases bytes with
      | nil => rw [outChunks, outBytes, ih]; rfl
      | cons b bs =>
        rw [outChunks, outBytes]
        simp only [chunksTotal, List.length_append, ih]

theorem chunksTotal_inChunks : ∀ (evs : List LoopEv) (o : Bool),
    chunksTotal (inChunks o evs) = (inBytes o evs).length := by
  intro evs
  induction evs with
  | nil => intro o; cases o <;> rfl
  | cons e rest ih =>
    intro o
    cases o with
    | false => rw [inChunks_false, inBytes_false]; rfl
    | true =>
      cases e with
      | stdinData t bytes =>
        cases bytes with
        | nil => rw [inChunks, inBytes, ih false]
        | cons b bs =>
          rw [inChunks, inBytes]
          simp only [chunksTotal, List.length_append, ih true]
      | masterData t bytes => rw [inChunks, inBytes, ih true]
      | winch t cols rows => rw [inChunks, inBytes, ih true]

/-- The loop state at session start, written out. -/
theorem initState_eq (t0 cols0 rows0 : Nat) :
    initState t0 cols0 rows0 =
      { stdin_open := true, should_exit := false, did_cleanup := false,
        inputLog := [], outputLog := [], input_end := 0, output_end := 0,
        input_prev := ⟨0, 0⟩, output_prev := ⟨0, 0⟩, events_prev := ⟨t0, 0⟩,
        input_tidx := [], output_tidx := [],
        resize_events := [(t0, 0, cols0, rows0)] } := by
  simp [initState, initLoopState, step, write_resize_event]

/-- **C2.** Timing-index consistency: for every captured session
(trace of wake-ups with a non-decreasing clock and no `uint64_t`
overflow), each stream's timing index, reconstructed by cumulatively
summing the per-record delta pairs, is exactly the absolute
(clock, cumulative offset) sequence of that stream's relayed chunks —
hence non-decreasing in both components — and the final reconstructed
offset equals the byte length of that stream's raw log; every relayed
chunk of `n > 0` bytes appends exactly one index record. -/
theorem c2_timing_index (t0 cols0 rows0 : Nat) (evs : List LoopEv)
    (hmono : timesMono 0 evs = true)
    (hout : (outBytes evs).length < U64)
    (hin : (inBytes true evs).length < U64) :
    reconstruct 0 0 (run (initState t0 cols0 rows0) evs).output_tidx =
      absChunks 0 (outChunks evs) ∧
    List.Chain' (fun a b => a.1 ≤ b.1 ∧ a.2 ≤ b.2)
      (reconstruct 0 0 (run (initState t0 cols0 rows0) evs).output_tidx) ∧
    ((reconstruct 0 0 (run (initState t0 cols0 rows0) evs).output_tidx).getLastD (0, 0)).2 =
      (run (initState t0 cols0 rows0) evs).outputLog.length ∧
    (run (initState t0 cols0 rows0) evs).output_tidx.length = (outChunks evs).length ∧
    reconstruct 0 0 (run (initState t0 cols0 rows0) evs).input_tidx =
      absChunks 0 (inChunks true evs) ∧
    List.Chain' (fun a b => a.1 ≤ b.1 ∧ a.2 ≤ b.2)
      (reconstruct 0 0 (run (initState t0 cols0 rows0) evs).input_tidx) ∧
    ((reconstruct 0 0 (run (initState t0 cols0 rows0) evs).input_tidx).getLastD (0, 0)).2 =
      (run (initState t0 cols0 rows0) evs).inputLog.length ∧
    (run (initState t0 cols0 rows0) evs).input_tidx.length = (inChunks true evs).length := by
  obtain ⟨o1, o2, o3, o4⟩ := run_output evs (initState t0 cols0 rows0)
  obtain ⟨i1, i2, i3, i4, i5⟩ := run_input evs (initState t0 cols0 rows0)
  simp only [show (initState t0 cols0 rows0).output_tidx = [] from rfl,
    show (initState t0 cols0 rows0).output_end = 0 from rfl,
    show (initState t0 cols0 rows0).output_prev = ⟨0, 0⟩ from rfl,
    show (initState t0 cols0 rows0).outputLog = [] from rfl,
    show (initState t0 cols0 rows0).input_tidx = [] from rfl,
    show (initState t0 cols0 rows0).input_end = 0 from rfl,
    show (initState t0 cols0 rows0).input_prev = ⟨0, 0⟩ from rfl,
    show (initState t0 cols0 rows0).inputLog = [] from rfl,
    show (initState t0 cols0 rows0).stdin_open = true from rfl,
    List.nil_append] at o1 o2 o3 o4 i1 i2 i3 i4 i5
  obtain ⟨to1, to2, to3, to4⟩ := tidxRun_spec (outChunks evs) 0 ⟨0, 0⟩ 0
    (timesMono_outChunks evs 0 hmono) (outChunks_pos evs) (le_refl 0) rfl
    (by rw [chunksTotal_outChunks]; omega)
  obtain ⟨ti1, ti2, ti3, ti4⟩ := tidxRun_spec (inChunks true evs) 0 ⟨0, 0⟩ 0
    (timesMono_inChunks evs 0 true hmono) (inChunks_pos evs true) (le_refl 0) rfl
    (by rw [chunksTotal_inChunks]; omega)
  have hocar : reconstruct 0 0 (run (initState t0 cols0 rows0) evs).output_tidx =
      absChunks 0 (outChunks evs) := by
    rw [o4]
    exact to3
  have hicar : reconstruct 0 0 (run (initState t0 cols0 rows0) evs).input_tidx =
      absChunks 0 (inChunks true evs) := by
    rw [i5]
    exact ti3
  refine ⟨hocar, ?_, ?_, ?_, hicar, ?_, ?_, ?_⟩
  · rw [hocar]
    exact (absChunks_props (outChunks evs) 0 0 (timesMono_outChunks evs 0 hmono)).1
  · rw [hocar, absChunks_getLastD (outChunks evs) 0 (0, 0) rfl, chunksTotal_outChunks, o1]
    simp
  · rw [o4, to4]
  · rw [hicar]
    exact (absChunks_props (inChunks true evs) 0 0 (timesMono_inChunks evs 0 true hmono)).1
  · rw [hicar, absChunks_getLastD (inChunks true evs) 0 (0, 0) rfl, chunksTotal_inChunks, i2]
    simp
  · rw [i5, ti4]

/-- Witness for C2 on a small session: two output chunks, one input
chunk and a resize, with increasing clock readings. -/
theorem c2_timing_index_witness :
    reconstruct 0 0 (run (initState 5 80 24)
      [LoopEv.masterData 10 [65, 66], LoopEv.stdinData 12 [13],
       LoopEv.winch 15 80 30, LoopEv.masterData 20 [67]]).output_tidx =
      absChunks 0 (outChunks
        [LoopEv.masterData 10 [65, 66], LoopEv.stdinData 12 [13],
         LoopEv.winch 15 80 30, LoopEv.masterData 20 [67]]) :=
  (c2_timing_index 5 80 24
    [LoopEv.masterData 10 [65, 66], LoopEv.stdinData 12 [13],
     LoopEv.winch 15 80 30, LoopEv.masterData 20 [67]]
    (by decide) (by decide) (by decide)).1

/-! ## Claim C6: stdin half-close -/

/-- **C6.** Input-stream half-close: when a read of standard input
returns end-of-file (an empty chunk), the loop iteration does nothing
but clear the stdin-monitoring flag — it does not touch the shutdown
or teardown flags or any log; for the remainder of the session stdin
stays unmonitored, so descriptor 0 is never again in the multiplexed
read set; and the loop keeps relaying and recording child output, its
shutdown and teardown flags driven only by signals, never by the EOF
itself. -/
theorem c6_stdin_halfclose (s : LoopState) (t : Nat) (evs : List LoopEv)
    (masterFd winch0 : Int) (ho : s.stdin_open = true)
    (hm : masterFd ≠ 0) (hw : winch0 ≠ 0) :
    step s (.stdinData t []) = { s with stdin_open := false } ∧
    (run (step s (.stdinData t [])) evs).stdin_open = false ∧
    (0 : Int) ∉ select_fds (run (step s (.stdinData t [])) evs).stdin_open masterFd winch0 ∧
    (run (step s (.stdinData t [])) evs).outputLog = s.outputLog ++ outBytes evs ∧
    (run (step s (.stdinData t [])) evs).should_exit = s.should_exit ∧
    (run (step s (.stdinData t [])) evs).did_cleanup = s.did_cleanup := by
  have hstep : step s (.stdinData t []) = { s with stdin_open := false } := by
    simp [step, ho]
  have hopen : (run (step s (.stdinData t [])) evs).stdin_open = false := by
    rw [hstep, (run_input evs { s with stdin_open := false }).1]
    exact stdinOpenAfter_false evs
  refine ⟨hstep, hopen, ?_, ?_, ?_, ?_⟩
  · rw [hopen]
    simp only [select_fds, if_neg Bool.false_ne_true, List.nil_append]
    intro hmem
    rcases List.mem_append.mp hmem with h1 | h2
    · rcases List.mem_singleton.mp h1 with h
      exact hm h.symm
    · split_ifs at h2 with hge
      · exact hw (List.mem_singleton.mp h2).symm
      · simp at h2
  · rw [hstep, (run_output evs { s with stdin_open := false }).1]
  · rw [hstep, (run_flags evs { s with stdin_open := false }).1]
  · rw [hstep, (run_flags evs { s with stdin_open := false }).2]

/-- Witness for C6: after an EOF at clock 7, a later output chunk is
still relayed and stdin stays out of the read set. -/
theorem c6_stdin_halfclose_witness :
    step (initState 5 80 24) (.stdinData 7 []) =
      { initState 5 80 24 with stdin_open := false } ∧
    (run (step (initState 5 80 24) (.stdinData 7 [])) [LoopEv.masterData 9 [65]]).stdin_open
      = false ∧
    (0 : Int) ∉ select_fds
      (run (step (initState 5 80 24) (.stdinData 7 [])) [LoopEv.masterData 9 [65]]).stdin_open
      3 4 ∧
    (run (step (initState 5 80 24) (.stdinData 7 [])) [LoopEv.masterData 9 [65]]).outputLog =
      (initState 5 80 24).outputLog ++ outBytes [LoopEv.masterData 9 [65]] ∧
    (run (step (initState 5 80 24) (.stdinData 7 [])) [LoopEv.masterData 9 [65]]).should_exit =
      (initState 5 80 24).should_exit ∧
    (run (step (initState 5 80 24) (.stdinData 7 [])) [LoopEv.masterData 9 [65]]).did_cleanup =
      (initState 5 80 24).did_cleanup :=
  c6_stdin_halfclose (initState 5 80 24) 7 [LoopEv.masterData 9 [65]] 3 4
    rfl (by norm_num) (by norm_num)

/-! ## Claim C7: timing-index file format -/

/-- `deltasOf` is the inverse of `reconstruct`: the delta pairs of
the cumulative sums are the original records. -/
theorem deltasOf_reconstruct : ∀ (recs : List (Nat × Nat)) (a b : Nat),
    deltasOf a b (reconstruct a b recs) = recs := by
  intro recs
  induction recs with
  | nil => intros; rfl
  | cons r rest ih =>
    obtain ⟨dt, doff⟩ := r
    intro a b
    simp only [reconstruct, deltasOf, Nat.add_sub_cancel_left]
    exact congrArg _ (ih (a + dt) (b + doff))

/-- The eight little-endian bytes written by `write_u64_le` decode to
the written value reduced to `uint64_t`. -/
theorem leValue_write_u64_le (v : Nat) : leValue (write_u64_le v) = v % U64 := by
  have h255 : ∀ x : Nat, x &&& 255 = x % 256 := by
    intro x
    have h := Nat.and_pow_two_sub_one_eq_mod x 8
    norm_num at h
    exact h
  simp only [write_u64_le, leValue, h255, Nat.shiftRight_eq_div_pow, U64]
  norm_num
  omega

/-- Counterexample to C7 as stated: a session whose input tidx open
fails while the output tidx open succeeds produces an output `.tidx`
file that does not begin with the magic tag at all.  `tidx_ok` is
false, so neither header write is attempted, yet the surviving
descriptor is not reset and the loop appends the delta records to it:
on a concrete one-chunk session the whole produced output file is the
two record bytes `[10, 1]`, whose first bytes are not `TIDX1`.  The
setup model confirms the path: the output sidecar stays enabled and a
warning was printed. -/
theorem c7_counterexample :
    (run (initState 5 80 24) [LoopEv.masterData 10 [65]]).output_tidx = [(10, 1)] ∧
    tidx_file_produced true false 123
      (run (initState 5 80 24) [LoopEv.masterData 10 [65]]).output_tidx = [10, 1] ∧
    (tidx_file_produced true false 123
      (run (initState 5 80 24) [LoopEv.masterData 10 [65]]).output_tidx).take 5 ≠
      [84, 73, 68, 88, 49] ∧
    (sidecar_setup false true true true true).output_tidx_enabled = true ∧
    1 ≤ (sidecar_setup false true true true true).warnings := by
  have h10 : uleb128_encode 10 = [10] := by
    rw [uleb128_encode]
    norm_num
  have h1 : uleb128_encode 1 = [1] := by
    rw [uleb128_encode]
    norm_num
  have hrecs : (run (initState 5 80 24) [LoopEv.masterData 10 [65]]).output_tidx =
      [(10, 1)] := by decide
  have hfile : tidx_file_produced true false 123
      (run (initState 5 80 24) [LoopEv.masterData 10 [65]]).output_tidx = [10, 1] := by
    rw [hrecs]
    simp [tidx_file_produced, tidx_record_bytes, h10, h1]
  refine ⟨hrecs, hfile, ?_, by decide, by decide⟩
  rw [hfile]
  decide

/-- **C7 (amended).** Timing-index file format: a `.tidx` file
produced on the path where both tidx opens succeeded (and the header
writes succeeded) begins with exactly the 5 magic bytes `TIDX1`, then
a zero flags byte, then the session start wall-clock timestamp as an
8-byte little-endian integer of nanoseconds, followed only by the
stream of ULEB128-encoded delta pairs (elapsed-time delta then offset
delta), each relative to the previous record or to session start /
offset zero for the first.  But when exactly one tidx open fails, the
sibling's produced file consists of the delta-pair stream with no
header at all — the header writes are skipped while the surviving
descriptor, still enabled after setup, keeps receiving the loop's
records; and a failed own open produces no content. -/
theorem c7_tidx_file_format_amended (ts t0 cols0 rows0 : Nat) (evs : List LoopEv)
    (hts : ts < U64) :
    ∀ recs ∈ [(run (initState t0 cols0 rows0) evs).input_tidx,
              (run (initState t0 cols0 rows0) evs).output_tidx],
      tidx_file_produced true true ts recs =
        tidx_header ts ++ (recs.map tidx_record_bytes).flatten ∧
      (tidx_file_produced true true ts recs).take 5 = [84, 73, 68, 88, 49] ∧
      ((tidx_file_produced true true ts recs).drop 5).take 1 = [0] ∧
      ((tidx_file_produced true true ts recs).drop 6).take 8 = write_u64_le ts ∧
      (write_u64_le ts).length = 8 ∧
      leValue (write_u64_le ts) = ts ∧
      (tidx_file_produced true true ts recs).drop 14 = (recs.map tidx_record_bytes).flatten ∧
      recs = deltasOf 0 0 (reconstruct 0 0 recs) ∧
      tidx_file_produced true false ts recs = (recs.map tidx_record_bytes).flatten ∧
      tidx_file_produced false true ts recs = [] ∧
      (sidecar_setup true false true true true).input_tidx_enabled = true ∧
      (sidecar_setup false true true true true).output_tidx_enabled = true ∧
      1 ≤ (sidecar_setup true false true true true).warnings := by
  intro recs _hmem
  refine ⟨rfl, rfl, rfl, rfl, rfl, ?_, rfl, (deltasOf_reconstruct recs 0 0).symm,
    rfl, rfl, rfl, rfl, by decide⟩
  rw [leValue_write_u64_le]
  exact Nat.mod_eq_of_lt hts

/-- Witness for the amended C7 at `ts = 123` on a one-chunk session:
with both opens good the file starts with the magic and the timestamp
decodes back; with the sibling open failed the file is just the
record bytes. -/
theorem c7_tidx_file_format_amended_witness :
    (tidx_file_produced true true 123
      (run (initState 5 80 24) [LoopEv.masterData 10 [65]]).output_tidx).take 5 =
      [84, 73, 68, 88, 49] ∧
    leValue (write_u64_le 123) = 123 ∧
    tidx_file_produced true false 123
      (run (initState 5 80 24) [LoopEv.masterData 10 [65]]).output_tidx =
      (((run (initState 5 80 24) [LoopEv.masterData 10 [65]]).output_tidx).map
        tidx_record_bytes).flatten := by
  obtain ⟨_, h2, _, _, _, h6, _, _, h9, _, _, _, _⟩ :=
    c7_tidx_file_format_amended 123 5 80 24 [LoopEv.masterData 10 [65]] (by norm_num [U64])
      ((run (initState 5 80 24) [LoopEv.masterData 10 [65]]).output_tidx) (by simp)
  exact ⟨h2, h6, h9⟩

/-! ## Claim C8: resize-event ordering and offset bound -/

/-- Relaxing the starting bound of `rchunkTimesStrict`. -/
theorem rchunkTimesStrict_mono : ∀ (l : List (Nat × Nat × Nat × Nat)) (c c' : Nat), c' ≤ c →
    rchunkTimesStrict c l = true → rchunkTimesStrict c' l = true := by
  intro l
  cases l with
  | nil => intros; rfl
  | cons ch rest =>
    obtain ⟨t, off, cols, rows⟩ := ch
    intro c c' hle h
    simp only [rchunkTimesStrict, Bool.and_eq_true, decide_eq_true_eq] at h ⊢
    exact ⟨⟨by omega, h.1.2⟩, h.2⟩

/-- Relaxing the starting bound of `rchunkOffMono`. -/
theorem rchunkOffMono_mono : ∀ (l : List (Nat × Nat × Nat × Nat)) (o o' : Nat), o' ≤ o →
    rchunkOffMono o l = true → rchunkOffMono o' l = true := by
  intro l
  cases l with
  | nil => intros; rfl
  | cons ch rest =>
    obtain ⟨t, off, cols, rows⟩ := ch
    intro o o' hle h
    simp only [rchunkOffMono, Bool.and_eq_true, decide_eq_true_eq] at h ⊢
    exact ⟨⟨by omega, h.1.2⟩, h.2⟩

theorem timesStrict_resizeChunks : ∀ (evs : List LoopEv) (c endOff : Nat),
    timesStrict c evs = true → rchunkTimesStrict c (resizeChunks endOff evs) = true := by
  intro evs
  induction evs with
  | nil => intros; rfl
  | cons e rest ih =>
    intro c endOff h
    simp only [timesStrict, Bool.and_eq_true, decide_eq_true_eq] at h
    obtain ⟨⟨hc, hU⟩, h2⟩ := h
    cases e with
    | stdinData t bytes =>
      rw [resizeChunks]
      exact rchunkTimesStrict_mono _ _ _ (le_of_lt hc) (ih (evTime (.stdinData t bytes)) endOff h2)
    | winch t cols rows =>
      rw [resizeChunks]
      simp only [rchunkTimesStrict, Bool.and_eq_true, decide_eq_true_eq]
      exact ⟨⟨hc, hU⟩, ih t endOff h2⟩
    | masterData t bytes =>
      cases bytes with
      | nil =>
        rw [resizeChunks]
        exact rchunkTimesStrict_mono _ _ _ (le_of_lt hc) (ih t endOff h2)
      | cons b bs =>
        rw [resizeChunks]
        exact rchunkTimesStrict_mono _ _ _ (le_of_lt hc) (ih t _ h2)

theorem resizeChunks_offMono : ∀ (evs : List LoopEv) (endOff : Nat),
    endOff + (outBytes evs).length < U64 →
    rchunkOffMono endOff (resizeChunks endOff evs) = true := by
  intro evs
  induction evs with
  | nil => intros; rfl
  | cons e rest ih =>
    intro endOff hov
    cases e with
    | stdinData t bytes =>
      rw [resizeChunks]
      rw [outBytes] at hov
      exact ih endOff hov
    | winch t cols rows =>
      rw [resizeChunks]
      rw [outBytes] at hov
      simp only [rchunkOffMono, Bool.and_eq_true, decide_eq_true_eq]
      exact ⟨⟨le_refl endOff, by omega⟩, ih endOff hov⟩
    | masterData t bytes =>
      cases bytes with
      | nil =>
        rw [resizeChunks]
        rw [outBytes] at hov
        simp only [List.nil_append] at hov
        exact ih endOff hov
      | cons b bs =>
        rw [resizeChunks]
        rw [outBytes, List.length_append] at hov
        have hend2 : (endOff + (b :: bs).length) % U64 = endOff + (b :: bs).length :=
          Nat.mod_eq_of_lt (by omega)
        rw [hend2]
        exact rchunkOffMono_mono _ _ _ (by omega) (ih (endOff + (b :: bs).length) (by omega))

theorem resizeChunks_off_le : ∀ (evs : List LoopEv) (endOff : Nat),
    endOff + (outBytes evs).length < U64 →
    ∀ x ∈ resizeChunks endOff evs, x.2.1 ≤ endOff + (outBytes evs).length := by
  intro evs
  induction evs with
  | nil => intro endOff _ x hx; simp [resizeChunks] at hx
  | cons e rest ih =>
    intro endOff hov x hx
    cases e with
    | stdinData t bytes =>
      rw [resizeChunks] at hx
      rw [outBytes] at hov ⊢
      exact ih endOff hov x hx
    | winch t cols rows =>
      rw [resizeChunks] at hx
      rw [outBytes] at hov ⊢
      rcases List.mem_cons.mp hx with h1 | h2
      · subst h1; simp
      · exact ih endOff hov x h2
    | masterData t bytes =>
      cases bytes with
      | nil =>
        rw [resizeChunks] at hx
        rw [outBytes] at hov ⊢
        simp only [List.nil_append] at hov ⊢
        exact ih endOff hov x hx
      | cons b bs =>
        rw [resizeChunks] at hx
        rw [outBytes, List.length_append] at hov ⊢
        have hend2 : (endOff + (b :: bs).length) % U64 = endOff + (b :: bs).length :=
          Nat.mod_eq_of_lt (by omega)
        rw [hend2] at hx
        have := ih (endOff + (b :: bs).length) (by omega) x hx
        omega

/-- Replaying the resize writer over strictly-timed records with
monotone offsets and reconstructing by cumulative sums gives back
exactly the absolute records. -/
theorem resizeRun_spec : ∀ (rchunks : List (Nat × Nat × Nat × Nat)) (p : PrevState) (c : Nat),
    rchunkTimesStrict c rchunks = true →
    rchunkOffMono p.prev_end rchunks = true →
    p.prev_t ≤ c →
    reconstructR p.prev_t p.prev_end (resizeRun p rchunks).2 = rchunks := by
  intro rchunks
  induction rchunks with
  | nil => intros; rfl
  | cons ch rest ih =>
    obtain ⟨t, off, cols, rows⟩ := ch
    intro p c hstr hoff hpt
    simp only [rchunkTimesStrict, Bool.and_eq_true, decide_eq_true_eq] at hstr
    obtain ⟨⟨hct, htU⟩, hstr2⟩ := hstr
    simp only [rchunkOffMono, Bool.and_eq_true, decide_eq_true_eq] at hoff
    obtain ⟨⟨hpo, hoU⟩, hoff2⟩ := hoff
    have hdt : (if p.prev_t = 0 then t else u64sub t p.prev_t) = t - p.prev_t := by
      split_ifs with h
      · omega
      · exact u64sub_eq t p.prev_t (by omega) htU
    have hdoff : (if p.prev_end = 0 then off else u64sub off p.prev_end) = off - p.prev_end := by
      split_ifs with h
      · omega
      · exact u64sub_eq off p.prev_end hpo hoU
    simp only [resizeRun, write_resize_event, hdt, hdoff, reconstructR]
    have h1 : p.prev_t + (t - p.prev_t) = t := by omega
    have h2 : p.prev_end + (off - p.prev_end) = off := by omega
    rw [h1, h2]
    exact congrArg _ (ih ⟨t, off⟩ t hstr2 hoff2 (le_refl t))

/-- Strictly-timed absolute resize records are strictly ordered by
elapsed time, and all their times exceed the start bound. -/
theorem rchunk_bound : ∀ (rchunks : List (Nat × Nat × Nat × Nat)) (c : Nat),
    rchunkTimesStrict c rchunks = true →
    List.Chain' (fun a b => a.1 < b.1) rchunks ∧ ∀ x ∈ rchunks, c < x.1 := by
  intro rchunks
  induction rchunks with
  | nil => intro c _; simp
  | cons ch rest ih =>
    obtain ⟨t, off, cols, rows⟩ := ch
    intro c hstr
    simp only [rchunkTimesStrict, Bool.and_eq_true, decide_eq_true_eq] at hstr
    obtain ⟨⟨hct, htU⟩, hstr2⟩ := hstr
    obtain ⟨ihc, ihm⟩ := ih t hstr2
    constructor
    · rw [List.chain'_cons']
      refine ⟨?_, ihc⟩
      intro y hy
      exact ihm y (List.mem_of_mem_head? hy)
    · intro x hx
      rcases List.mem_cons.mp hx with h1 | h2
      · subst h1; exact hct
      · have := ihm x h2
        omega

/-- **C8.** Resize-event ordering and offset bound: the reconstructed
resize events of a session (initial record establishing the starting
geometry at offset 0, plus one record per handled window-size change
taken at the output stream's cumulative offset) are exactly the
absolute resize records of the trace; they are strictly ordered by
elapsed time, begin with the initial-geometry record, and the stream
offset of every event never exceeds the output log's final byte
length. -/
theorem c8_resize_events (t0 cols0 rows0 : Nat) (evs : List LoopEv)
    (ht0 : t0 < U64) (hstr : timesStrict t0 evs = true)
    (hout : (outBytes evs).length < U64) :
    reconstructR 0 0 (run (initState t0 cols0 rows0) evs).resize_events =
      (t0, 0, cols0, rows0) :: resizeChunks 0 evs ∧
    List.Chain' (fun a b => a.1 < b.1)
      (reconstructR 0 0 (run (initState t0 cols0 rows0) evs).resize_events) ∧
    (reconstructR 0 0 (run (initState t0 cols0 rows0) evs).resize_events).head? =
      some (t0, 0, cols0, rows0) ∧
    ∀ x ∈ reconstructR 0 0 (run (initState t0 cols0 rows0) evs).resize_events,
      x.2.1 ≤ (run (initState t0 cols0 rows0) evs).outputLog.length := by
  obtain ⟨r1, r2⟩ := run_resize evs (initState t0 cols0 rows0)
  simp only [show (initState t0 cols0 rows0).events_prev = ⟨t0, 0⟩ from rfl,
    show (initState t0 cols0 rows0).output_end = 0 from rfl,
    show (initState t0 cols0 rows0).resize_events = [(t0, 0, cols0, rows0)] from rfl]
    at r1 r2
  have o1 := (run_output evs (initState t0 cols0 rows0)).1
  rw [show (initState t0 cols0 rows0).outputLog = [] from rfl, List.nil_append] at o1
  have hspec := resizeRun_spec (resizeChunks 0 evs) ⟨t0, 0⟩ t0
    (timesStrict_resizeChunks evs t0 0 hstr)
    (resizeChunks_offMono evs 0 (by omega)) (le_refl t0)
  have hcar : reconstructR 0 0 (run (initState t0 cols0 rows0) evs).resize_events =
      (t0, 0, cols0, rows0) :: resizeChunks 0 evs := by
    rw [r2]
    simp only [List.cons_append, List.nil_append, reconstructR, Nat.zero_add, Nat.add_zero]
    exact congrArg _ hspec
  obtain ⟨hchain, hmem⟩ := rchunk_bound (resizeChunks 0 evs) t0
    (timesStrict_resizeChunks evs t0 0 hstr)
  refine ⟨hcar, ?_, ?_, ?_⟩
  · rw [hcar, List.chain'_cons']
    refine ⟨?_, hchain⟩
    intro y hy
    exact hmem y (List.mem_of_mem_head? hy)
  · rw [hcar]
    rfl
  · intro x hx
    rw [hcar] at hx
    rw [o1]
    rcases List.mem_cons.mp hx with h1 | h2
    · subst h1
      simp
    · have := resizeChunks_off_le evs 0 (by omega) x h2
      omega

/-- Witness for C8: an initial geometry record, one resize at a later
clock after an output chunk, with offsets bounded by the log. -/
theorem c8_resize_events_witness :
    reconstructR 0 0 (run (initState 5 80 24)
      [LoopEv.masterData 10 [65, 66], LoopEv.winch 15 100 40]).resize_events =
      (5, 0, 80, 24) :: resizeChunks 0
        [LoopEv.masterData 10 [65, 66], LoopEv.winch 15 100 40] :=
  (c8_resize_events 5 80 24 [LoopEv.masterData 10 [65, 66], LoopEv.winch 15 100 40]
    (by norm_num [U64]) (by decide) (by decide)).1

end TermCapture
